import Mathlib

/-!
Single-site Gibbs sampler of `nel/gibbs_field.h`.

A shallow embedding of the class `gibbs_field<Map>` and a verification of its
specification.

Modelling conventions.

* `unsigned int` values are natural numbers.  The one place where the source
  multiplies them, the loop bound `patch_count * n * n` of `sample`, is reduced
  modulo `2 ^ 32` the way the machine does it.
* `float` values are rationals (every finite `float` is one).  The additions
  that accumulate `log_probabilities[i]` round: a float addition is the
  rounding of the exact sum, and of the rounding only what `float_rounding`
  records is used.  The other float operations, of `normalize_exp` and of
  line 80, are taken exact.
* The arguments of the call of line 38 draw from the generator in an order the
  language leaves open; `draw_order` lists the orders it permits and a sampler
  carries the one its compiled code uses.
* The map owns the patches.  A patch is named by its patch position and the
  world is the function sending a patch position to the item array of that
  patch; a `patch_type*` is the patch position it points to.
* Operations whose behaviour the language leaves undefined (a modulo by zero, a
  read of an unwritten `patch_index`, an index outside an array) end the run
  with a `fault`.
* `item_type_count + 1` and the 64-bit coordinates of world positions are taken
  not to overflow.
* `Map`, the item array, `normalize_exp`, `select_categorical` and the global
  generator `engine` are declared outside `gibbs_field.h`.  `Map` is a
  parameter; what the sampler needs from its `get_neighborhood` is stated as
  the predicates `owner_resolved` and `resolves_owners`.
-/

namespace nel

/-! ## Data model -/

/-- Modelled from the spec: `position.h` is not among the sources.  A position
is an ordered pair of integer coordinates. -/
structure position where
  x : Int
  y : Int
deriving DecidableEq, Repr

/-- Modelled from the spec: `position * unsigned int`, coordinate-wise. -/
def position.scale (p : position) (k : Nat) : position :=
  ⟨p.x * (k : Int), p.y * (k : Int)⟩

/-- Modelled from the spec: `position + position`, coordinate-wise. -/
def position.add (p q : position) : position :=
  ⟨p.x + q.x, p.y + q.y⟩

/-- The item type of the map: the initializer `{sampled_item_type,
world_position, 0, 0}` of line 94 fixes four fields, the last two being the
reserved metadata. -/
structure item where
  item_type : Nat
  location : position
  reserved0 : Nat
  reserved1 : Nat
deriving DecidableEq, Repr

/-- The patches of the map: the item array of the patch at each patch
position. -/
abbrev patch_store := position → List item

/-- What `get_neighborhood` leaves in its out-parameters: the first
`neighbor_count` entries of `neighbor_positions` (entry `j` of `neighborhood`
points to the patch at `neighbor_positions[j]`), and `patch_index`, which is
`none` when the call did not write it. -/
structure neighborhood_result where
  neighbor_positions : List position
  patch_index : Option Nat

/-- The template parameter `Map`, as far as the sampler uses it. -/
structure Map where
  get_neighborhood : patch_store → position → neighborhood_result
  intensity : position → Nat → ℚ
  interaction : position → position → Nat → Nat → ℚ

/-- The orders in which the three draws of line 38 can reach the generator.
The offsets are the elements of a braced list, so the first is drawn before the
second; the draw of the patch index is an argument of its own and may come
before them, after them, or (before C++17) between them. -/
inductive draw_order where
  | patch_first
  | patch_between
  | patch_last
deriving DecidableEq, Repr

/-- The rounding of the machine's `float` additions: the result of an addition
is the rounding of the exact sum.  Rounding keeps 0 and keeps the order; no
other property of it is used. -/
structure float_rounding where
  round : ℚ → ℚ
  round_zero : round 0 = 0
  round_monotone : Monotone round

/-- The fields of `gibbs_field`, together with the two things the class takes
from the `core` library (the maximum of the global generator `engine`, and the
exponential used by `normalize_exp`) and two properties of the compiled code
(the order of the draws of line 38 and the rounding of `float` additions). -/
structure gibbs_field where
  map : Map
  patch_positions : Nat → position
  patch_count : Nat
  n : Nat
  item_type_count : Nat
  engine_max : Nat
  exp : ℚ → ℚ
  order : draw_order
  rounding : float_rounding

/-- The generator passed to `sample`: the sequence of values its successive
calls return, the number of calls made so far, and `rng.max()`. -/
structure RNG where
  outputs : Nat → Nat
  calls : Nat
  max : Nat

/-- The state a call of `sample` works on. -/
structure sampler_state where
  patches : patch_store
  rng : RNG

/-- Undefined behaviour of the source. -/
inductive fault where
  | modulo_by_zero
  | patch_index_not_written
  | neighborhood_out_of_bounds
  | item_index_out_of_bounds
deriving DecidableEq, Repr

/-! ## Collaborators from the `core` library -/

/-- One call `rng()`. -/
def RNG.next (rng : RNG) : Nat × RNG :=
  (rng.outputs rng.calls, { rng with calls := rng.calls + 1 })

/-- Modelled from the spec: `items.add(item)` of the `core` array appends one
item. -/
def array_add (data : List item) (x : item) : List item :=
  data ++ [x]

/-- Modelled from the spec: `items.remove(index)` of the `core` array removes
one item with swap-remove semantics: the length drops by one and the last
element moves into the vacated slot. -/
def array_remove (data : List item) (index : Nat) : List item :=
  match data[data.length - 1]? with
  | none => data
  | some last =>
    if index = data.length - 1 then data.dropLast
    else data.dropLast.set index last

/-- Modelled from the spec: `normalize_exp` of `math/log.h`, the numerically
stable softmax of section 4.3, steps 1 to 3. -/
def normalize_exp (exp : ℚ → ℚ) (log_probabilities : List ℚ) : List ℚ :=
  let max_log := log_probabilities.foldl max (log_probabilities.headD 0)
  let exps := log_probabilities.map (fun v => exp (v - max_log))
  let total := exps.sum
  exps.map (fun e => e / total)

/-- The cumulative-sum walk of `select_categorical`: `aggregator` is the sum of
the entries before index `i`. -/
def select_categorical_walk (random : ℚ) : List ℚ → ℚ → Nat → Nat
  | [], _, i => i - 1
  | p :: rest, aggregator, i =>
    if random < aggregator + p then i
    else select_categorical_walk random rest (aggregator + p) (i + 1)

/-- Modelled from the spec: `select_categorical` of `core/random.h`, section
4.3 step 5: the smallest index whose cumulative sum exceeds `random`, clamped
to the last index. -/
def select_categorical (probability : List ℚ) (random : ℚ) (length : Nat) : Nat :=
  select_categorical_walk random (probability.take length) 0 0

/-! ## The sampler -/

/-- Lines 43-45: `rng() % n`. -/
def sample_uniform (rng : RNG) (n : Nat) : Except fault (Nat × RNG) :=
  if n = 0 then Except.error fault.modulo_by_zero
  else Except.ok ((rng.next).1 % n, (rng.next).2)

/-- Line 54: `patch_position * n + position_within_patch`. -/
def world_position_of (n : Nat) (patch_position position_within_patch : position) : position :=
  (patch_position.scale n).add position_within_patch

/-- The variables the loops of lines 61-76 update for one candidate type:
`log_probabilities[i]`, `old_item_index` and `old_item_type`. -/
structure cell_scan where
  log_probability : ℚ
  old_item_index : Nat
  old_item_type : Nat

/-- Lines 66-74: the loop over the items of one neighbor patch, from index
`m` on. -/
def scan_items (fr : float_rounding) (map : Map) (world_position : position) (i : Nat) :
    List item → Nat → cell_scan → cell_scan
  | [], _, s => s
  | it :: rest, m, s =>
    if it.location = world_position then
      scan_items fr map world_position i rest (m + 1) ⟨s.log_probability, m, it.item_type⟩
    else
      scan_items fr map world_position i rest (m + 1)
        ⟨fr.round
            (s.log_probability + map.interaction world_position it.location i it.item_type),
          s.old_item_index, s.old_item_type⟩

/-- Lines 64-75: the loop over the neighbor patches. -/
def scan_neighborhood (fr : float_rounding) (map : Map) (patches : patch_store)
    (world_position : position) (i : Nat) (neighbors : List position) (s : cell_scan) :
    cell_scan :=
  neighbors.foldl (fun acc p => scan_items fr map world_position i (patches p) 0 acc) s

/-- The outcome of lines 59-78. -/
structure cell_distribution where
  log_probabilities : List ℚ
  old_item_index : Nat
  old_item_type : Nat

/-- One iteration of the loop of line 61, for candidate type `i`. -/
def scan_type (g : gibbs_field) (patches : patch_store) (neighbors : List position)
    (world_position : position) (d : cell_distribution) (i : Nat) : cell_distribution :=
  let s := scan_neighborhood g.rounding g.map patches world_position i neighbors
    ⟨g.map.intensity world_position i, d.old_item_index, d.old_item_type⟩
  ⟨d.log_probabilities ++ [s.log_probability], s.old_item_index, s.old_item_type⟩

/-- Lines 59-78: the conditional distribution builder. -/
def build_distribution (g : gibbs_field) (patches : patch_store) (neighbors : List position)
    (world_position : position) : cell_distribution :=
  let d := (List.range g.item_type_count).foldl
    (scan_type g patches neighbors world_position) ⟨[], 0, g.item_type_count⟩
  ⟨d.log_probabilities ++ [0], d.old_item_index, d.old_item_type⟩

/-- Line 80: `(float) rng() / engine.max()`. -/
def uniform_draw (g : gibbs_field) (r : Nat) : ℚ :=
  (r : ℚ) / (g.engine_max : ℚ)

/-- Line 85: `*neighborhood[patch_index]`. -/
def current_patch_of (nb : neighborhood_result) : Except fault position :=
  match nb.patch_index with
  | none => Except.error fault.patch_index_not_written
  | some k =>
    match nb.neighbor_positions[k]? with
    | none => Except.error fault.neighborhood_out_of_bounds
    | some p => Except.ok p

/-- Lines 89-91: the removal branch. -/
def remove_old (g : gibbs_field) (patches : patch_store) (current_patch : position)
    (old_item_index old_item_type : Nat) : Except fault patch_store :=
  if old_item_type < g.item_type_count then
    if old_item_index < (patches current_patch).length then
      Except.ok (Function.update patches current_patch
        (array_remove (patches current_patch) old_item_index))
    else Except.error fault.item_index_out_of_bounds
  else Except.ok patches

/-- Lines 92-95: the insertion branch. -/
def add_new (g : gibbs_field) (patches : patch_store) (current_patch : position)
    (world_position : position) (sampled_item_type : Nat) : patch_store :=
  if sampled_item_type < g.item_type_count then
    Function.update patches current_patch
      (array_add (patches current_patch) ⟨sampled_item_type, world_position, 0, 0⟩)
  else patches

/-- Lines 85-95: the occupancy mutator. -/
def mutate_cell (g : gibbs_field) (patches : patch_store) (nb : neighborhood_result)
    (world_position : position) (old_item_index old_item_type sampled_item_type : Nat) :
    Except fault patch_store :=
  match current_patch_of nb with
  | Except.error e => Except.error e
  | Except.ok current_patch =>
    if old_item_type = sampled_item_type then Except.ok patches
    else
      match remove_old g patches current_patch old_item_index old_item_type with
      | Except.error e => Except.error e
      | Except.ok removed =>
        Except.ok (add_new g removed current_patch world_position sampled_item_type)

/-- Lines 48-96: one single-site update. -/
def sample_cell (g : gibbs_field) (st : sampler_state)
    (patch_position position_within_patch : position) : Except fault sampler_state :=
  let world_position := world_position_of g.n patch_position position_within_patch
  let nb := g.map.get_neighborhood st.patches world_position
  let d := build_distribution g st.patches nb.neighbor_positions world_position
  let probabilities := normalize_exp g.exp d.log_probabilities
  let random := uniform_draw g (st.rng.next).1
  let sampled_item_type := select_categorical probabilities random (g.item_type_count + 1)
  match mutate_cell g st.patches nb world_position d.old_item_index d.old_item_type
      sampled_item_type with
  | Except.error e => Except.error e
  | Except.ok patches => Except.ok ⟨patches, (st.rng.next).2⟩

/-- The value of `patch_count * n * n` in 32-bit unsigned arithmetic. -/
def sweep_length (g : gibbs_field) : Nat :=
  ((g.patch_count * g.n) % 2 ^ 32 * g.n) % 2 ^ 32

/-- Three calls of `sample_uniform` one after another, with the bounds `m0`,
`m1`, `m2`. -/
def draw_three (rng : RNG) (m0 m1 m2 : Nat) : Except fault (Nat × Nat × Nat × RNG) :=
  match sample_uniform rng m0 with
  | Except.error e => Except.error e
  | Except.ok (v0, rng1) =>
    match sample_uniform rng1 m1 with
    | Except.error e => Except.error e
    | Except.ok (v1, rng2) =>
      match sample_uniform rng2 m2 with
      | Except.error e => Except.error e
      | Except.ok (v2, rng3) => Except.ok (v0, v1, v2, rng3)

/-- The body of the loop of line 38: the three uniform draws of the arguments,
in the order the compiled code takes them, then the update of the drawn
cell. -/
def sample_iteration (g : gibbs_field) (st : sampler_state) : Except fault sampler_state :=
  match g.order with
  | draw_order.patch_first =>
    match draw_three st.rng g.patch_count g.n g.n with
    | Except.error e => Except.error e
    | Except.ok (k, ox, oy, rng3) =>
      sample_cell g ⟨st.patches, rng3⟩ (g.patch_positions k) ⟨(ox : Int), (oy : Int)⟩
  | draw_order.patch_between =>
    match draw_three st.rng g.n g.patch_count g.n with
    | Except.error e => Except.error e
    | Except.ok (ox, k, oy, rng3) =>
      sample_cell g ⟨st.patches, rng3⟩ (g.patch_positions k) ⟨(ox : Int), (oy : Int)⟩
  | draw_order.patch_last =>
    match draw_three st.rng g.n g.n g.patch_count with
    | Except.error e => Except.error e
    | Except.ok (ox, oy, k, rng3) =>
      sample_cell g ⟨st.patches, rng3⟩ (g.patch_positions k) ⟨(ox : Int), (oy : Int)⟩

/-- Lines 37-38: the loop of `sample`, from counter value `i` on. -/
def sample_loop (g : gibbs_field) (i : Nat) (st : sampler_state) :
    Except fault sampler_state :=
  if i < sweep_length g then
    match sample_iteration g st with
    | Except.error e => Except.error e
    | Except.ok st1 => sample_loop g (i + 1) st1
  else Except.ok st
termination_by sweep_length g - i

/-- Lines 36-39: `sample(rng)`. -/
def sample (g : gibbs_field) (st : sampler_state) : Except fault sampler_state :=
  sample_loop g 0 st

/-! ## Specification predicates -/

/-- At most one item is located at each world position: two stored items with
the same location are the same entry of the same patch. -/
def single_occupancy (patches : patch_store) : Prop :=
  ∀ (p q : position) (i j : Nat) (a b : item),
    (patches p)[i]? = some a → (patches q)[j]? = some b →
    a.location = b.location → p = q ∧ i = j

/-- Every stored item has a real type. -/
def real_types (g : gibbs_field) (patches : patch_store) : Prop :=
  ∀ (p : position) (a : item), a ∈ patches p → a.item_type < g.item_type_count

/-- Modelled from the spec: the patch owning a world position is the position
floor-divided by the patch side `n`. -/
def owning_patch (n : Nat) (w : position) : position :=
  ⟨Int.fdiv w.x (n : Int), Int.fdiv w.y (n : Int)⟩

/-- Every item is stored in the patch that owns its location. -/
def patch_containment (g : gibbs_field) (patches : patch_store) : Prop :=
  ∀ (p : position) (a : item), a ∈ patches p → owning_patch g.n a.location = p

/-- A well-formed world: single occupancy, real stored types, containment. -/
def well_formed (g : gibbs_field) (patches : patch_store) : Prop :=
  single_occupancy patches ∧ real_types g patches ∧ patch_containment g patches

/-- The contract of `get_neighborhood` at one position: `patch_index` is
written and designates the patch that owns the position. -/
def owner_resolved (g : gibbs_field) (patches : patch_store) (w : position) : Prop :=
  current_patch_of (g.map.get_neighborhood patches w) = Except.ok (owning_patch g.n w)

/-- The interaction energy the items of one patch contribute to candidate type
`i` at `w`: the item located at `w` itself is left out. -/
def patch_energy (map : Map) (w : position) (i : Nat) (items : List item) : ℚ :=
  ((items.filter (fun a => decide (a.location ≠ w))).map
    (fun a => map.interaction w a.location i a.item_type)).sum

/-- The interaction terms the loop of lines 66-74 adds for candidate type `i`
while it goes through the items of one patch, in index order: one term for
every item not located at `w`. -/
def patch_terms (map : Map) (w : position) (i : Nat) (items : List item) : List ℚ :=
  (items.filter (fun a => decide (a.location ≠ w))).map
    (fun a => map.interaction w a.location i a.item_type)

/-- The interaction terms the loops of lines 64-75 add for candidate type `i`,
in the order they add them: neighbor patch after neighbor patch. -/
def neighborhood_terms (map : Map) (patches : patch_store) (w : position) (i : Nat)
    (neighbors : List position) : List ℚ :=
  neighbors.flatMap (fun p => patch_terms map w i (patches p))

/-- A sum accumulated the way the loop does it: from `init` on, one rounded
float addition per term, in the order of the list. -/
def float_sum (fr : float_rounding) (init : ℚ) (terms : List ℚ) : ℚ :=
  terms.foldl (fun acc t => fr.round (acc + t)) init

/-- The place, among the three draws of an iteration, of the draw of the patch
index. -/
def patch_slot : draw_order → Nat
  | draw_order.patch_first => 0
  | draw_order.patch_between => 1
  | draw_order.patch_last => 2

/-- The place of the draw of the first offset. -/
def offset_x_slot : draw_order → Nat
  | draw_order.patch_first => 1
  | draw_order.patch_between => 0
  | draw_order.patch_last => 0

/-- The place of the draw of the second offset. -/
def offset_y_slot : draw_order → Nat
  | draw_order.patch_first => 2
  | draw_order.patch_between => 2
  | draw_order.patch_last => 1

/-- The neighborhood `sample_cell` works with. -/
def cell_neighborhood (g : gibbs_field) (st : sampler_state)
    (patch_position position_within_patch : position) : neighborhood_result :=
  g.map.get_neighborhood st.patches (world_position_of g.n patch_position position_within_patch)

/-- The distribution `sample_cell` builds. -/
def cell_distribution_of (g : gibbs_field) (st : sampler_state)
    (patch_position position_within_patch : position) : cell_distribution :=
  build_distribution g st.patches
    (cell_neighborhood g st patch_position position_within_patch).neighbor_positions
    (world_position_of g.n patch_position position_within_patch)

/-- The uniform value `sample_cell` hands to `select_categorical`. -/
def cell_random (g : gibbs_field) (st : sampler_state) : ℚ :=
  uniform_draw g (st.rng.next).1

/-- The category `sample_cell` samples. -/
def cell_sampled_item_type (g : gibbs_field) (st : sampler_state)
    (patch_position position_within_patch : position) : Nat :=
  select_categorical
    (normalize_exp g.exp
      (cell_distribution_of g st patch_position position_within_patch).log_probabilities)
    (cell_random g st) (g.item_type_count + 1)

/-- No item of a neighbor patch is located at `w`. -/
def unoccupied_in (patches : patch_store) (neighbors : List position) (w : position) : Prop :=
  ∀ (p : position), p ∈ neighbors → ∀ (a : item), a ∈ patches p → a.location ≠ w

/-- Some neighbor patch stores, at index `idx`, an item of type `ty` located at
`w`. -/
def occupant_at (patches : patch_store) (neighbors : List position) (w : position)
    (idx ty : Nat) : Prop :=
  ∃ (p : position), p ∈ neighbors ∧
    ∃ (a : item), (patches p)[idx]? = some a ∧ a.location = w ∧ a.item_type = ty

/-- The contract of `get_neighborhood`, in every state of the map and at every
position. -/
def resolves_owners (g : gibbs_field) : Prop :=
  ∀ (patches : patch_store) (w : position), owner_resolved g patches w

/-- The sweep as the spec words it: `k` single-site updates applied strictly
one after another, each to the state left by the previous one. -/
def run_updates (g : gibbs_field) : Nat → sampler_state → Except fault sampler_state
  | 0, st => Except.ok st
  | k + 1, st =>
    match sample_iteration g st with
    | Except.error e => Except.error e
    | Except.ok st1 => run_updates g k st1

/-- Any number `k` of successive calls of `sample`. -/
def sample_times (g : gibbs_field) : Nat → sampler_state → Except fault sampler_state
  | 0, st => Except.ok st
  | k + 1, st =>
    match sample g st with
    | Except.error e => Except.error e
    | Except.ok st1 => sample_times g k st1

/-- The cumulative sum of a probability vector through index `i`. -/
def cumulative (probability : List ℚ) (i : Nat) : ℚ :=
  (probability.take (i + 1)).sum

/-- The neighborhood query produces a valid `patch_index`, in every state of
the map and at every position. -/
def resolves_patch_index (g : gibbs_field) : Prop :=
  ∀ (patches : patch_store) (w : position),
    ∃ cur : position, current_patch_of (g.map.get_neighborhood patches w) = Except.ok cur

/-! ## Concrete instances -/

/-- A map whose neighborhood of a position is the one patch that owns it, with
a flat energy model. -/
def flat_map (n : Nat) : Map :=
  ⟨fun _ w => ⟨[owning_patch n w], some 0⟩, fun _ _ => 0, fun _ _ _ _ => 0⟩

/-- The rounding that rounds nothing. -/
def exact_rounding : float_rounding :=
  ⟨fun q => q, rfl, fun _ _ h => h⟩

/-- A sampler over the single patch `(0, 0)` of side 2 with two item types. -/
def example_field : gibbs_field :=
  ⟨flat_map 2, fun _ => ⟨0, 0⟩, 1, 2, 2, 4, fun _ => 1, draw_order.patch_first,
    exact_rounding⟩

/-- The world without items. -/
def empty_store : patch_store := fun _ => []

/-- The world whose only item has type 0 and sits at `(0, 0)`, with non-zero
reserved metadata. -/
def one_item_store : patch_store :=
  fun p => if p = ⟨0, 0⟩ then [⟨0, ⟨0, 0⟩, 7, 9⟩] else []

/-- A generator returning the same value at every call. -/
def constant_rng (r : Nat) : RNG := ⟨fun _ => r, 0, 4⟩

/-- A sampler over one patch of side 65536: the product `1 * 65536 * 65536` is
`2 ^ 32`. -/
def wide_field : gibbs_field :=
  ⟨flat_map 65536, fun _ => ⟨0, 0⟩, 1, 65536, 2, 4, fun _ => 1, draw_order.patch_first,
    exact_rounding⟩

/-- A generator with outputs up to `2 ^ 32 - 1` that returns its maximum. -/
def full_range_rng : RNG := ⟨fun _ => 4294967295, 0, 4294967295⟩

/-- The example sampler next to a global `engine` whose maximum is
2147483646. -/
def minstd_field : gibbs_field :=
  ⟨flat_map 2, fun _ => ⟨0, 0⟩, 1, 2, 2, 2147483646, fun _ => 1, draw_order.patch_first,
    exact_rounding⟩

/-- A sampler whose patch side is 0. -/
def degenerate_field : gibbs_field :=
  ⟨flat_map 0, fun _ => ⟨0, 0⟩, 3, 0, 2, 4, fun _ => 1, draw_order.patch_first,
    exact_rounding⟩

/-- The scenario of section 8: one item type, side 2, the single patch
`(0, 0)`, and a flat energy model. -/
def flat_field : gibbs_field :=
  ⟨flat_map 2, fun _ => ⟨0, 0⟩, 1, 2, 1, 4, fun _ => 1, draw_order.patch_first,
    exact_rounding⟩

/-- The example sampler with `item_type_count == 0`. -/
def zero_type_field : gibbs_field :=
  ⟨flat_map 2, fun _ => ⟨0, 0⟩, 1, 2, 0, 4, fun _ => 1, draw_order.patch_first,
    exact_rounding⟩

/-- A sampler over a map that resolves no neighborhood: `get_neighborhood`
returns no neighbor and leaves `patch_index` unwritten. -/
def unresolving_field : gibbs_field :=
  ⟨⟨fun _ _ => ⟨[], none⟩, fun _ _ => 0, fun _ _ _ _ => 0⟩,
    fun _ => ⟨0, 0⟩, 1, 2, 2, 4, fun _ => 1, draw_order.patch_first, exact_rounding⟩

/-- A sampler over a map whose neighborhood of a position is the patch that
owns it, at `patch_index` 0, followed by the patch `(1, 0)`. -/
def two_patch_field : gibbs_field :=
  ⟨⟨fun _ w => ⟨[owning_patch 2 w, ⟨1, 0⟩], some 0⟩, fun _ _ => 0, fun _ _ _ _ => 0⟩,
    fun _ => ⟨0, 0⟩, 1, 2, 2, 4, fun _ => 1, draw_order.patch_first, exact_rounding⟩

/-- A world that breaks containment: the patch `(0, 0)` holds an item located
at `(1, 0)`, and the item located at `(0, 0)` is stored in the patch
`(1, 0)`. -/
def misplaced_store : patch_store :=
  fun p =>
    if p = ⟨0, 0⟩ then [⟨0, ⟨1, 0⟩, 0, 0⟩]
    else if p = ⟨1, 0⟩ then [⟨0, ⟨0, 0⟩, 0, 0⟩]
    else []

/-- A sampler over the two patches `(0, 0)` and `(1, 0)` of side 2 whose
compiled code draws the offsets first and the patch index last. -/
def late_patch_field : gibbs_field :=
  ⟨flat_map 2, fun k => ⟨(k : Int), 0⟩, 2, 2, 2, 4, fun _ => 1, draw_order.patch_last,
    exact_rounding⟩

/-- A generator whose outputs are 1, 2, 3, 4, ... -/
def counting_rng : RNG := ⟨fun k => k + 1, 0, 4294967295⟩

/-! ## The conditional distribution builder -/

theorem float_sum_nil (fr : float_rounding) (init : ℚ) : float_sum fr init [] = init := rfl

theorem float_sum_cons (fr : float_rounding) (init t : ℚ) (terms : List ℚ) :
    float_sum fr init (t :: terms) = float_sum fr (fr.round (init + t)) terms := rfl

theorem float_sum_append (fr : float_rounding) (init : ℚ) (xs ys : List ℚ) :
    float_sum fr init (xs ++ ys) = float_sum fr (float_sum fr init xs) ys := by
  simp [float_sum, List.foldl_append]

/-- Without rounding the accumulated sum is the sum. -/
theorem float_sum_exact (fr : float_rounding) (hexact : ∀ q : ℚ, fr.round q = q)
    (terms : List ℚ) : ∀ init : ℚ, float_sum fr init terms = init + terms.sum := by
  induction terms with
  | nil => intro init; simp [float_sum]
  | cons t rest ih =>
    intro init
    rw [float_sum_cons, ih, hexact]
    simp [add_assoc]

/-- Terms that are all 0, accumulated from 0, give 0. -/
theorem float_sum_zero (fr : float_rounding) (terms : List ℚ) (h : ∀ t ∈ terms, t = 0) :
    float_sum fr 0 terms = 0 := by
  induction terms with
  | nil => rfl
  | cons t rest ih =>
    rw [float_sum_cons, h t (List.mem_cons_self _ _), add_zero, fr.round_zero]
    exact ih (fun u hu => h u (List.mem_cons_of_mem _ hu))

/-- Terms that are at most 0, accumulated from a value at most 0, give a value
at most 0. -/
theorem float_sum_nonpos (fr : float_rounding) (terms : List ℚ) (h : ∀ t ∈ terms, t ≤ 0) :
    ∀ init : ℚ, init ≤ 0 → float_sum fr init terms ≤ 0 := by
  induction terms with
  | nil => intro init hi; exact hi
  | cons t rest ih =>
    intro init hi
    rw [float_sum_cons]
    apply ih (fun u hu => h u (List.mem_cons_of_mem _ hu))
    have h1 := h t (List.mem_cons_self _ _)
    have h2 : fr.round (init + t) ≤ fr.round 0 := fr.round_monotone (by linarith)
    rw [fr.round_zero] at h2
    exact h2

/-- The input on which rounding shows: from 16777216, two additions of 1.  With
a rounding that, like that of `float`, sends 16777217 to 16777216, the
accumulated sum is 16777216 and not 16777218. -/
theorem float_sum_rounds (fr : float_rounding) (h : fr.round 16777217 = 16777216) :
    float_sum fr 16777216 [1, 1] = 16777216 := by
  have h1 : (16777216 : ℚ) + 1 = 16777217 := by norm_num
  simp [float_sum, h1, h]

theorem scan_items_log_probability (fr : float_rounding) (map : Map) (w : position) (i : Nat)
    (items : List item) :
    ∀ (m : Nat) (s : cell_scan),
      (scan_items fr map w i items m s).log_probability
        = float_sum fr s.log_probability (patch_terms map w i items) := by
  induction items with
  | nil => intro m s; simp [scan_items, patch_terms, float_sum]
  | cons a rest ih =>
    intro m s
    by_cases h : a.location = w
    · simp [scan_items, h, ih, patch_terms]
    · have hterms : patch_terms map w i (a :: rest)
          = map.interaction w a.location i a.item_type :: patch_terms map w i rest := by
        simp [patch_terms, h]
      rw [hterms, float_sum_cons]
      simp [scan_items, h, ih]

theorem scan_neighborhood_log_probability (fr : float_rounding) (map : Map)
    (patches : patch_store) (w : position) (i : Nat) (neighbors : List position) :
    ∀ s : cell_scan,
      (scan_neighborhood fr map patches w i neighbors s).log_probability
        = float_sum fr s.log_probability (neighborhood_terms map patches w i neighbors) := by
  induction neighbors with
  | nil => intro s; simp [scan_neighborhood, neighborhood_terms, float_sum]
  | cons p rest ih =>
    intro s
    have h := ih (scan_items fr map w i (patches p) 0 s)
    have hterms : neighborhood_terms map patches w i (p :: rest)
        = patch_terms map w i (patches p) ++ neighborhood_terms map patches w i rest := by
      simp [neighborhood_terms]
    simp only [scan_neighborhood, List.foldl_cons] at h ⊢
    rw [h, scan_items_log_probability, hterms, float_sum_append]

theorem foldl_scan_type_log_probabilities (g : gibbs_field) (patches : patch_store)
    (neighbors : List position) (w : position) (types : List Nat) :
    ∀ d : cell_distribution,
      (types.foldl (scan_type g patches neighbors w) d).log_probabilities
        = d.log_probabilities ++ types.map (fun i =>
            float_sum g.rounding (g.map.intensity w i)
              (neighborhood_terms g.map patches w i neighbors)) := by
  induction types with
  | nil => intro d; simp
  | cons i rest ih =>
    intro d
    simp only [List.foldl_cons, List.map_cons]
    rw [ih]
    simp [scan_type, scan_neighborhood_log_probability]

theorem build_distribution_log_probabilities (g : gibbs_field) (patches : patch_store)
    (neighbors : List position) (w : position) :
    (build_distribution g patches neighbors w).log_probabilities
      = (List.range g.item_type_count).map (fun i =>
            float_sum g.rounding (g.map.intensity w i)
              (neighborhood_terms g.map patches w i neighbors)) ++ [0] := by
  simp [build_distribution, foldl_scan_type_log_probabilities]

/-- Every term the loops add is the interaction with an item of a neighbor
patch that is not located at the target. -/
theorem neighborhood_terms_mem (map : Map) (patches : patch_store) (w : position) (i : Nat)
    (neighbors : List position) (t : ℚ)
    (h : t ∈ neighborhood_terms map patches w i neighbors) :
    ∃ (p : position) (a : item), p ∈ neighbors ∧ a ∈ patches p ∧ a.location ≠ w
      ∧ t = map.interaction w a.location i a.item_type := by
  simp only [neighborhood_terms, patch_terms, List.mem_flatMap, List.mem_map,
    List.mem_filter, decide_eq_true_eq] at h
  obtain ⟨p, hp, a, ⟨ha, hne⟩, hta⟩ := h
  exact ⟨p, a, hp, ha, hne, hta.symm⟩

/-- Without rounding the accumulated terms of the neighborhood add up to the
sum, over the neighbor patches, of the interaction energies of their items. -/
theorem neighborhood_terms_sum (map : Map) (patches : patch_store) (w : position) (i : Nat)
    (neighbors : List position) :
    (neighborhood_terms map patches w i neighbors).sum
      = (neighbors.map (fun p => patch_energy map w i (patches p))).sum := by
  induction neighbors with
  | nil => simp [neighborhood_terms]
  | cons p rest ih =>
    have hterms : neighborhood_terms map patches w i (p :: rest)
        = patch_terms map w i (patches p) ++ neighborhood_terms map patches w i rest := by
      simp [neighborhood_terms]
    rw [hterms, List.sum_append, ih]
    simp [patch_energy, patch_terms]

/-- The terms the loops add, read off the items of the neighbor patches taken
in scan order. -/
theorem neighborhood_terms_eq (map : Map) (patches : patch_store) (w : position) (i : Nat)
    (neighbors : List position) :
    neighborhood_terms map patches w i neighbors
      = List.map (fun a => map.interaction w a.location i a.item_type)
          (List.filter (fun a => decide (a.location ≠ w))
            (List.flatMap neighbors (fun p => patches p))) := by
  induction neighbors with
  | nil => simp [neighborhood_terms]
  | cons p rest ih =>
    have hterms : neighborhood_terms map patches w i (p :: rest)
        = patch_terms map w i (patches p) ++ neighborhood_terms map patches w i rest := by
      simp [neighborhood_terms]
    rw [hterms, ih]
    simp [patch_terms]

/-- With a flat energy model every entry the builder accumulates is 0. -/
theorem float_sum_flat (g : gibbs_field) (patches : patch_store) (w : position) (i : Nat)
    (neighbors : List position)
    (hint : ∀ (w : position) (i : Nat), g.map.intensity w i = 0)
    (hx : ∀ (w v : position) (i t : Nat), g.map.interaction w v i t = 0) :
    float_sum g.rounding (g.map.intensity w i)
      (neighborhood_terms g.map patches w i neighbors) = 0 := by
  rw [hint]
  apply float_sum_zero
  intro t ht
  obtain ⟨_, a, _, _, _, h⟩ := neighborhood_terms_mem g.map patches w i neighbors t ht
  rw [h, hx]

theorem scan_items_old (fr : float_rounding) (map : Map) (w : position) (i : Nat)
    (items : List item) :
    ∀ (m : Nat) (s : cell_scan),
      ((∀ a ∈ items, a.location ≠ w)
          ∧ (scan_items fr map w i items m s).old_item_index = s.old_item_index
          ∧ (scan_items fr map w i items m s).old_item_type = s.old_item_type)
      ∨ (∃ (k : Nat) (a : item), items[k]? = some a ∧ a.location = w
          ∧ (scan_items fr map w i items m s).old_item_index = m + k
          ∧ (scan_items fr map w i items m s).old_item_type = a.item_type) := by
  induction items with
  | nil => intro m s; left; simp [scan_items]
  | cons b rest ih =>
    intro m s
    by_cases h : b.location = w
    · right
      rcases ih (m + 1) ⟨s.log_probability, m, b.item_type⟩ with ⟨_, h1, h2⟩ | ⟨k, a, hk, ha, h1, h2⟩
      · exact ⟨0, b, by simp, h, by simp [scan_items, h, h1], by simp [scan_items, h, h2]⟩
      · refine ⟨k + 1, a, by simpa using hk, ha, ?_, ?_⟩
        · simp only [scan_items, h, if_true, h1]; omega
        · simp only [scan_items, h, if_true, h2]
    · rcases ih (m + 1) ⟨fr.round (s.log_probability
            + map.interaction w b.location i b.item_type),
          s.old_item_index, s.old_item_type⟩ with ⟨h0, h1, h2⟩ | ⟨k, a, hk, ha, h1, h2⟩
      · left
        refine ⟨?_, by simp [scan_items, h, h1], by simp [scan_items, h, h2]⟩
        intro a ha
        rcases List.mem_cons.mp ha with rfl | ha
        · exact h
        · exact h0 a ha
      · right
        refine ⟨k + 1, a, by simpa using hk, ha, ?_, ?_⟩
        · simp only [scan_items, h, if_false, h1]; omega
        · simp only [scan_items, h, if_false, h2]

theorem scan_neighborhood_old (fr : float_rounding) (map : Map) (patches : patch_store)
    (w : position) (i : Nat) (neighbors : List position) :
    ∀ s : cell_scan,
      (unoccupied_in patches neighbors w
          ∧ (scan_neighborhood fr map patches w i neighbors s).old_item_index = s.old_item_index
          ∧ (scan_neighborhood fr map patches w i neighbors s).old_item_type = s.old_item_type)
      ∨ occupant_at patches neighbors w
          (scan_neighborhood fr map patches w i neighbors s).old_item_index
          (scan_neighborhood fr map patches w i neighbors s).old_item_type := by
  induction neighbors with
  | nil => intro s; left; simp [scan_neighborhood, unoccupied_in]
  | cons p rest ih =>
    intro s
    have hstep : scan_neighborhood fr map patches w i (p :: rest) s
        = scan_neighborhood fr map patches w i rest (scan_items fr map w i (patches p) 0 s) := rfl
    rw [hstep]
    rcases ih (scan_items fr map w i (patches p) 0 s) with ⟨h0, h1, h2⟩ | ⟨q, hq, a, ha⟩
    · rcases scan_items_old fr map w i (patches p) 0 s with ⟨g0, g1, g2⟩ | ⟨k, a, hk, ha, g1, g2⟩
      · left
        refine ⟨?_, h1.trans g1, h2.trans g2⟩
        intro q hq a ha
        rcases List.mem_cons.mp hq with rfl | hq
        · exact g0 a ha
        · exact h0 q hq a ha
      · right
        refine ⟨p, List.mem_cons_self _ _, a, ?_, ha, ?_⟩
        · rw [h1, g1]; simpa using hk
        · rw [h2, g2]
    · right
      exact ⟨q, List.mem_cons_of_mem _ hq, a, ha⟩

theorem foldl_scan_type_old (g : gibbs_field) (patches : patch_store)
    (neighbors : List position) (w : position) (types : List Nat) :
    ∀ d : cell_distribution,
      ((types = [] ∨ unoccupied_in patches neighbors w)
          ∧ (types.foldl (scan_type g patches neighbors w) d).old_item_index = d.old_item_index
          ∧ (types.foldl (scan_type g patches neighbors w) d).old_item_type = d.old_item_type)
      ∨ occupant_at patches neighbors w
          (types.foldl (scan_type g patches neighbors w) d).old_item_index
          (types.foldl (scan_type g patches neighbors w) d).old_item_type := by
  induction types with
  | nil => intro d; left; simp
  | cons i rest ih =>
    intro d
    simp only [List.foldl_cons]
    rcases ih (scan_type g patches neighbors w d i) with ⟨_, h1, h2⟩ | h
    · rcases scan_neighborhood_old g.rounding g.map patches w i neighbors
          ⟨g.map.intensity w i, d.old_item_index, d.old_item_type⟩ with ⟨g0, g1, g2⟩ | hocc
      · left
        exact ⟨Or.inr g0, h1.trans g1, h2.trans g2⟩
      · right
        rw [h1, h2]
        exact hocc
    · right
      exact h

/-- What the builder records about the occupant: either nothing (no candidate
type was scanned, or no neighbor patch has an item at `w`) and the initial
values stand, or the index and type of an item located at `w`. -/
theorem build_distribution_old (g : gibbs_field) (patches : patch_store)
    (neighbors : List position) (w : position) :
    ((g.item_type_count = 0 ∨ unoccupied_in patches neighbors w)
        ∧ (build_distribution g patches neighbors w).old_item_index = 0
        ∧ (build_distribution g patches neighbors w).old_item_type = g.item_type_count)
    ∨ occupant_at patches neighbors w
        (build_distribution g patches neighbors w).old_item_index
        (build_distribution g patches neighbors w).old_item_type := by
  rcases foldl_scan_type_old g patches neighbors w (List.range g.item_type_count)
      ⟨[], 0, g.item_type_count⟩ with ⟨h0, h1, h2⟩ | h
  · left
    refine ⟨?_, h1, h2⟩
    rcases h0 with h0 | h0
    · left
      simpa using h0
    · exact Or.inr h0
  · right
    exact h

/-! ## The item array -/

theorem set_perm_cons (x : item) : ∀ (d : List item) (i : Nat) (a : item),
    d[i]? = some a → (a :: d.set i x).Perm (x :: d)
  | [], i, a, h => by simp at h
  | b :: t, 0, a, h => by
    simp at h
    subst h
    simpa using List.Perm.swap x b t
  | b :: t, i + 1, a, h => by
    simp at h
    have ih := set_perm_cons x t i a h
    simp only [List.set_cons_succ]
    exact ((List.Perm.swap b a _).trans (ih.cons b)).trans (List.Perm.swap x b t)

/-- Swap-remove takes out exactly the entry at the index. -/
theorem array_remove_perm (l : List item) (i : Nat) (a : item) (h : l[i]? = some a) :
    (a :: array_remove l i).Perm l := by
  rcases List.eq_nil_or_concat l with rfl | ⟨d, last, rfl⟩
  · simp at h
  · rw [List.concat_eq_append] at h ⊢
    have hlast : (d ++ [last])[(d ++ [last]).length - 1]? = some last := by simp
    unfold array_remove
    rw [hlast]
    simp only [List.length_append, List.length_singleton, Nat.add_sub_cancel,
      List.dropLast_concat]
    by_cases hi : i = d.length
    · subst hi
      simp at h
      subst h
      simpa using (List.perm_append_singleton last d).symm
    · rw [if_neg hi]
      have hlt : i < d.length := by
        have := (List.getElem?_eq_some.mp h).1
        simp at this
        omega
      have h2 : d[i]? = some a := by
        rw [List.getElem?_append_left hlt] at h
        exact h
      exact (set_perm_cons last d i a h2).trans (List.perm_append_singleton last d).symm

theorem array_remove_perm_erase (l : List item) (i : Nat) (a : item) (h : l[i]? = some a) :
    (array_remove l i).Perm (l.erase a) :=
  ((array_remove_perm l i a h).trans (List.perm_cons_erase (List.getElem?_mem h))).cons_inv

theorem array_remove_mem (l : List item) (i : Nat) (a : item) (h : l[i]? = some a)
    (b : item) (hb : b ∈ array_remove l i) : b ∈ l :=
  (array_remove_perm l i a h).subset (List.mem_cons_of_mem a hb)

theorem array_remove_length (l : List item) (i : Nat) (a : item) (h : l[i]? = some a) :
    (array_remove l i).length + 1 = l.length := by
  simpa using (array_remove_perm l i a h).length_eq

/-- After the removal of the entry located at `w` from an array with distinct
locations, the locations stay distinct and none of them is `w`. -/
theorem array_remove_locations (l : List item) (i : Nat) (a : item) (h : l[i]? = some a)
    (hn : (l.map item.location).Nodup) :
    ((array_remove l i).map item.location).Nodup
      ∧ ∀ b ∈ array_remove l i, b.location ≠ a.location := by
  have hp := (array_remove_perm l i a h).map item.location
  have hn2 : (a.location :: (array_remove l i).map item.location).Nodup := by
    simpa using hp.nodup_iff.mpr hn
  rw [List.nodup_cons] at hn2
  refine ⟨hn2.2, ?_⟩
  intro b hb hloc
  exact hn2.1 (hloc ▸ List.mem_map_of_mem item.location hb)

/-! ## Single occupancy, patch by patch -/

theorem single_occupancy_nodup (patches : patch_store) (h : single_occupancy patches)
    (p : position) : ((patches p).map item.location).Nodup := by
  rw [List.nodup_iff_getElem?_ne_getElem?]
  intro i j hij hj heq
  rw [List.length_map] at hj
  have hi : i < (patches p).length := by omega
  have ha : (patches p)[i]? = some ((patches p)[i]) := List.getElem?_eq_getElem hi
  have hb : (patches p)[j]? = some ((patches p)[j]) := List.getElem?_eq_getElem hj
  rw [List.getElem?_map, List.getElem?_map, ha, hb] at heq
  simp only [Option.map_some', Option.some.injEq] at heq
  have := (h p p i j _ _ ha hb heq).2
  omega

theorem single_occupancy_of_nodup (patches : patch_store)
    (hn : ∀ p, ((patches p).map item.location).Nodup)
    (hx : ∀ (p q : position) (a b : item), a ∈ patches p → b ∈ patches q →
      a.location = b.location → p = q) :
    single_occupancy patches := by
  intro p q i j a b ha hb hloc
  have hpq := hx p q a b (List.getElem?_mem ha) (List.getElem?_mem hb) hloc
  subst hpq
  refine ⟨rfl, ?_⟩
  by_contra hne
  have hnd := List.nodup_iff_getElem?_ne_getElem?.mp (hn p)
  have hi := (List.getElem?_eq_some.mp ha).1
  have hj := (List.getElem?_eq_some.mp hb).1
  rcases Nat.lt_or_gt_of_ne hne with hlt | hgt
  · apply hnd i j hlt (by simpa using hj)
    rw [List.getElem?_map, List.getElem?_map, ha, hb]
    simp [hloc]
  · apply hnd j i hgt (by simpa using hi)
    rw [List.getElem?_map, List.getElem?_map, ha, hb]
    simp [hloc]

/-- Replacing the array of one patch keeps a world well formed when the new
array has distinct locations and its items have real types and lie in that
patch. -/
theorem well_formed_update (g : gibbs_field) (patches : patch_store) (cur : position)
    (l : List item) (hwf : well_formed g patches)
    (hn : (l.map item.location).Nodup)
    (hm : ∀ a ∈ l, a.item_type < g.item_type_count ∧ owning_patch g.n a.location = cur) :
    well_formed g (Function.update patches cur l) := by
  obtain ⟨hso, hrt, hpc⟩ := hwf
  have hmem : ∀ (p : position) (a : item), a ∈ Function.update patches cur l p →
      a.item_type < g.item_type_count ∧ owning_patch g.n a.location = p := by
    intro p a ha
    by_cases hp : p = cur
    · subst hp
      rw [Function.update_same] at ha
      exact hm a ha
    · rw [Function.update_noteq hp] at ha
      exact ⟨hrt p a ha, hpc p a ha⟩
  refine ⟨single_occupancy_of_nodup _ ?_ ?_, fun p a ha => (hmem p a ha).1,
    fun p a ha => (hmem p a ha).2⟩
  · intro p
    by_cases hp : p = cur
    · subst hp
      rw [Function.update_same]
      exact hn
    · rw [Function.update_noteq hp]
      exact single_occupancy_nodup patches hso p
  · intro p q a b ha hb hloc
    rw [← (hmem p a ha).2, ← (hmem q b hb).2, hloc]

/-! ## The occupancy mutator -/

theorem sample_cell_eq (g : gibbs_field) (st : sampler_state)
    (patch_position position_within_patch : position) :
    sample_cell g st patch_position position_within_patch
      = match mutate_cell g st.patches
          (cell_neighborhood g st patch_position position_within_patch)
          (world_position_of g.n patch_position position_within_patch)
          (cell_distribution_of g st patch_position position_within_patch).old_item_index
          (cell_distribution_of g st patch_position position_within_patch).old_item_type
          (cell_sampled_item_type g st patch_position position_within_patch) with
        | Except.error e => Except.error e
        | Except.ok patches => Except.ok ⟨patches, (st.rng.next).2⟩ := rfl

theorem current_patch_mem (nb : neighborhood_result) (cur : position)
    (h : current_patch_of nb = Except.ok cur) : cur ∈ nb.neighbor_positions := by
  unfold current_patch_of at h
  split at h
  · exact absurd h (by simp)
  · split at h
    · exact absurd h (by simp)
    · rename_i hk
      have : _ = cur := Except.ok.inj h
      subst this
      exact List.getElem?_mem hk

theorem mutate_cell_same (g : gibbs_field) (patches : patch_store) (nb : neighborhood_result)
    (w : position) (oi ot s : Nat) (cur : position)
    (hcur : current_patch_of nb = Except.ok cur) (h : ot = s) :
    mutate_cell g patches nb w oi ot s = Except.ok patches := by
  simp [mutate_cell, hcur, h]

theorem mutate_cell_keep (g : gibbs_field) (patches : patch_store) (nb : neighborhood_result)
    (w : position) (oi ot s : Nat) (cur : position)
    (hcur : current_patch_of nb = Except.ok cur)
    (h1 : ¬ ot < g.item_type_count) (h2 : ¬ s < g.item_type_count) :
    mutate_cell g patches nb w oi ot s = Except.ok patches := by
  by_cases h : ot = s
  · exact mutate_cell_same g patches nb w oi ot s cur hcur h
  · simp [mutate_cell, hcur, h, remove_old, add_new, h1, h2]

theorem mutate_cell_add (g : gibbs_field) (patches : patch_store) (nb : neighborhood_result)
    (w : position) (oi ot s : Nat) (cur : position)
    (hcur : current_patch_of nb = Except.ok cur)
    (h1 : ¬ ot < g.item_type_count) (h2 : s < g.item_type_count) :
    mutate_cell g patches nb w oi ot s
      = Except.ok (Function.update patches cur (patches cur ++ [⟨s, w, 0, 0⟩])) := by
  have h : ot ≠ s := fun e => h1 (e ▸ h2)
  simp [mutate_cell, hcur, h, remove_old, add_new, h1, h2, array_add]

theorem mutate_cell_remove (g : gibbs_field) (patches : patch_store) (nb : neighborhood_result)
    (w : position) (oi ot s : Nat) (cur : position)
    (hcur : current_patch_of nb = Except.ok cur) (h : ot ≠ s)
    (h1 : ot < g.item_type_count) (hoi : oi < (patches cur).length)
    (h2 : ¬ s < g.item_type_count) :
    mutate_cell g patches nb w oi ot s
      = Except.ok (Function.update patches cur (array_remove (patches cur) oi)) := by
  simp [mutate_cell, hcur, h, remove_old, add_new, h1, h2, hoi]

theorem mutate_cell_replace (g : gibbs_field) (patches : patch_store) (nb : neighborhood_result)
    (w : position) (oi ot s : Nat) (cur : position)
    (hcur : current_patch_of nb = Except.ok cur) (h : ot ≠ s)
    (h1 : ot < g.item_type_count) (hoi : oi < (patches cur).length)
    (h2 : s < g.item_type_count) :
    mutate_cell g patches nb w oi ot s
      = Except.ok (Function.update patches cur
          (array_remove (patches cur) oi ++ [⟨s, w, 0, 0⟩])) := by
  simp [mutate_cell, hcur, h, remove_old, add_new, h1, h2, hoi, array_add]

/-- What the builder has recorded when the world is well formed and the
neighborhood designates the owning patch: either the cell is empty in the whole
world and `old_item_type` is the sentinel, or `old_item_index` is the index, in
the owning patch, of the item located at the cell, and `old_item_type` is its
type. -/
theorem cell_view (g : gibbs_field) (patches : patch_store) (w : position)
    (hwf : well_formed g patches) (hres : owner_resolved g patches w) :
    ((∀ (p : position) (a : item), a ∈ patches p → a.location ≠ w)
        ∧ (build_distribution g patches
            (g.map.get_neighborhood patches w).neighbor_positions w).old_item_type
          = g.item_type_count)
    ∨ (∃ a : item,
        (patches (owning_patch g.n w))[(build_distribution g patches
            (g.map.get_neighborhood patches w).neighbor_positions w).old_item_index]? = some a
        ∧ a.location = w
        ∧ a.item_type = (build_distribution g patches
            (g.map.get_neighborhood patches w).neighbor_positions w).old_item_type) := by
  obtain ⟨_, hrt, hpc⟩ := hwf
  have hmem := current_patch_mem _ _ hres
  rcases build_distribution_old g patches
      (g.map.get_neighborhood patches w).neighbor_positions w
    with ⟨h0, _, h2⟩ | ⟨q, _, b, hb, hbw, hbt⟩
  · left
    refine ⟨?_, h2⟩
    intro p a ha haw
    rcases h0 with h0 | h0
    · have := hrt p a ha
      omega
    · have hp : owning_patch g.n w = p := haw ▸ hpc p a ha
      exact h0 p (hp ▸ hmem) a ha haw
  · right
    have hq : owning_patch g.n w = q := hbw ▸ hpc q b (List.getElem?_mem hb)
    exact ⟨b, hq ▸ hb, hbw, hbt⟩

/-- The mutator never faults on a well-formed world whose neighborhood
designates the owning patch, and it leaves the world well formed, whatever the
sampled category. -/
theorem mutate_cell_well_formed (g : gibbs_field) (patches : patch_store) (w : position)
    (s : Nat) (hwf : well_formed g patches) (hres : owner_resolved g patches w) :
    ∃ patches1 : patch_store,
      mutate_cell g patches (g.map.get_neighborhood patches w) w
        (build_distribution g patches
          (g.map.get_neighborhood patches w).neighbor_positions w).old_item_index
        (build_distribution g patches
          (g.map.get_neighborhood patches w).neighbor_positions w).old_item_type s
        = Except.ok patches1
      ∧ well_formed g patches1 := by
  rcases cell_view g patches w hwf hres with ⟨hfree, hot⟩ | ⟨a, ha, haw, hat⟩
  · by_cases hs : s < g.item_type_count
    · refine ⟨_, mutate_cell_add g patches _ w _ _ s _ hres (by omega) hs, ?_⟩
      apply well_formed_update g patches _ _ hwf
      · rw [List.map_append, List.nodup_append]
        refine ⟨single_occupancy_nodup patches hwf.1 _, by simp, ?_⟩
        intro l hl1 hl2
        simp only [List.map_cons, List.map_nil, List.mem_singleton] at hl2
        obtain ⟨b, hb, hbl⟩ := List.mem_map.mp hl1
        exact hfree _ b hb (hbl.trans hl2)
      · intro b hb
        rcases List.mem_append.mp hb with hb | hb
        · exact ⟨hwf.2.1 _ b hb, hwf.2.2 _ b hb⟩
        · simp only [List.mem_singleton] at hb
          subst hb
          exact ⟨hs, rfl⟩
    · exact ⟨patches, mutate_cell_keep g patches _ w _ _ s _ hres (by omega) hs, hwf⟩
  · have hreal : a.item_type < g.item_type_count := hwf.2.1 _ a (List.getElem?_mem ha)
    have hoi := (List.getElem?_eq_some.mp ha).1
    have hloc := array_remove_locations _ _ a ha (single_occupancy_nodup patches hwf.1 _)
    have hsub : ∀ b ∈ array_remove (patches (owning_patch g.n w)) _,
        b.item_type < g.item_type_count ∧ owning_patch g.n b.location = owning_patch g.n w :=
      fun b hb => ⟨hwf.2.1 _ b (array_remove_mem _ _ a ha b hb),
        hwf.2.2 _ b (array_remove_mem _ _ a ha b hb)⟩
    by_cases hsame : a.item_type = s
    · exact ⟨patches, mutate_cell_same g patches _ w _ _ s _ hres (hat ▸ hsame), hwf⟩
    · by_cases hs : s < g.item_type_count
      · refine ⟨_, mutate_cell_replace g patches _ w _ _ s _ hres (hat ▸ hsame)
          (hat ▸ hreal) hoi hs, ?_⟩
        apply well_formed_update g patches _ _ hwf
        · rw [List.map_append, List.nodup_append]
          refine ⟨hloc.1, by simp, ?_⟩
          intro l hl1 hl2
          simp only [List.map_cons, List.map_nil, List.mem_singleton] at hl2
          obtain ⟨b, hb, hbl⟩ := List.mem_map.mp hl1
          exact hloc.2 b hb (hbl.trans (hl2.trans haw.symm))
        · intro b hb
          rcases List.mem_append.mp hb with hb | hb
          · exact hsub b hb
          · simp only [List.mem_singleton] at hb
            subst hb
            exact ⟨hs, rfl⟩
      · refine ⟨_, mutate_cell_remove g patches _ w _ _ s _ hres (hat ▸ hsame)
          (hat ▸ hreal) hoi hs, ?_⟩
        exact well_formed_update g patches _ _ hwf hloc.1 hsub

/-- One single-site update of a well-formed world returns, and returns a
well-formed world. -/
theorem sample_cell_well_formed (g : gibbs_field) (st : sampler_state)
    (patch_position position_within_patch : position)
    (hwf : well_formed g st.patches)
    (hres : owner_resolved g st.patches
      (world_position_of g.n patch_position position_within_patch)) :
    ∃ st1 : sampler_state,
      sample_cell g st patch_position position_within_patch = Except.ok st1
      ∧ well_formed g st1.patches ∧ st1.rng = (st.rng.next).2 := by
  obtain ⟨patches1, h1, h2⟩ := mutate_cell_well_formed g st.patches
    (world_position_of g.n patch_position position_within_patch)
    (cell_sampled_item_type g st patch_position position_within_patch) hwf hres
  refine ⟨⟨patches1, (st.rng.next).2⟩, ?_, h2, rfl⟩
  rw [sample_cell_eq]
  unfold cell_neighborhood cell_distribution_of cell_neighborhood
  rw [h1]

/-! ## The sweep -/

theorem sample_loop_eq_run_updates (g : gibbs_field) :
    ∀ (k i : Nat) (st : sampler_state), sweep_length g - i = k →
      sample_loop g i st = run_updates g k st := by
  intro k
  induction k with
  | zero =>
    intro i st h
    rw [sample_loop, if_neg (by omega)]
    rfl
  | succ k ih =>
    intro i st h
    rw [sample_loop, if_pos (by omega)]
    simp only [run_updates]
    cases hit : sample_iteration g st with
    | error e => rfl
    | ok st1 => exact ih (i + 1) st1 (by omega)

theorem sweep_length_eq (g : gibbs_field) :
    sweep_length g = (g.patch_count * g.n * g.n) % 2 ^ 32 := by
  unfold sweep_length
  exact Nat.mod_mul_mod

theorem sweep_length_pos (g : gibbs_field) (h : 0 < sweep_length g) :
    g.patch_count ≠ 0 ∧ g.n ≠ 0 := by
  rw [sweep_length_eq] at h
  constructor
  · intro h0
    simp [h0] at h
  · intro h0
    simp [h0] at h

theorem sample_uniform_ok (rng : RNG) (n : Nat) (hn : n ≠ 0) :
    sample_uniform rng n = Except.ok ((rng.next).1 % n, (rng.next).2) := by
  simp [sample_uniform, hn]

theorem sample_uniform_calls (rng : RNG) (n : Nat) (v : Nat) (rng1 : RNG)
    (h : sample_uniform rng n = Except.ok (v, rng1)) : rng1.calls = rng.calls + 1 := by
  unfold sample_uniform at h
  split at h
  · exact absurd h (by simp)
  · have h2 := Except.ok.inj h
    have h3 : (rng.next).2 = rng1 := congrArg Prod.snd h2
    rw [← h3]
    rfl

theorem sample_cell_calls (g : gibbs_field) (st st1 : sampler_state)
    (patch_position position_within_patch : position)
    (h : sample_cell g st patch_position position_within_patch = Except.ok st1) :
    st1.rng.calls = st.rng.calls + 1 := by
  rw [sample_cell_eq] at h
  split at h
  · exact absurd h (by simp)
  · have h2 := Except.ok.inj h
    rw [← h2]
    rfl

theorem draw_three_ok (rng : RNG) (m0 m1 m2 : Nat) (h0 : m0 ≠ 0) (h1 : m1 ≠ 0)
    (h2 : m2 ≠ 0) :
    draw_three rng m0 m1 m2
      = Except.ok (rng.outputs rng.calls % m0, rng.outputs (rng.calls + 1) % m1,
          rng.outputs (rng.calls + 2) % m2, ⟨rng.outputs, rng.calls + 3, rng.max⟩) := by
  unfold draw_three
  rw [sample_uniform_ok _ _ h0]
  simp only
  rw [sample_uniform_ok _ _ h1]
  simp only
  rw [sample_uniform_ok _ _ h2]
  rfl

theorem draw_three_fault (rng : RNG) (m0 m1 m2 : Nat) (h : m0 = 0 ∨ m1 = 0 ∨ m2 = 0) :
    draw_three rng m0 m1 m2 = Except.error fault.modulo_by_zero := by
  by_cases h0 : m0 = 0
  · simp [draw_three, sample_uniform, h0]
  · by_cases h1 : m1 = 0
    · simp [draw_three, sample_uniform, h0, h1]
    · have h2 : m2 = 0 := by
        rcases h with h | h | h
        · exact absurd h h0
        · exact absurd h h1
        · exact h
      simp [draw_three, sample_uniform, h0, h1, h2]

/-- With `patch_count == 0` or `n == 0` the body of the loop runs into
`rng() % 0`, whatever the order of the draws. -/
theorem sample_iteration_fault (g : gibbs_field) (st : sampler_state)
    (h : g.patch_count = 0 ∨ g.n = 0) :
    sample_iteration g st = Except.error fault.modulo_by_zero := by
  unfold sample_iteration
  split
  · rw [draw_three_fault _ _ _ _ (by tauto)]
  · rw [draw_three_fault _ _ _ _ (by tauto)]
  · rw [draw_three_fault _ _ _ _ (by tauto)]

/-- Whatever the order of the draws, the body of the loop is the single-site
update of the patch and offsets drawn from the next three outputs of the
generator, each at its slot. -/
theorem sample_iteration_eq (g : gibbs_field) (st : sampler_state)
    (hp : g.patch_count ≠ 0) (hn : g.n ≠ 0) :
    sample_iteration g st
      = sample_cell g ⟨st.patches, ⟨st.rng.outputs, st.rng.calls + 3, st.rng.max⟩⟩
          (g.patch_positions
            (st.rng.outputs (st.rng.calls + patch_slot g.order) % g.patch_count))
          ⟨((st.rng.outputs (st.rng.calls + offset_x_slot g.order) % g.n : Nat) : Int),
            ((st.rng.outputs (st.rng.calls + offset_y_slot g.order) % g.n : Nat) : Int)⟩ := by
  unfold sample_iteration
  split
  · rename_i hord
    rw [hord, draw_three_ok _ _ _ _ hp hn hn]
    rfl
  · rename_i hord
    rw [hord, draw_three_ok _ _ _ _ hn hp hn]
    rfl
  · rename_i hord
    rw [hord, draw_three_ok _ _ _ _ hn hn hp]
    rfl

theorem sample_iteration_calls (g : gibbs_field) (st st1 : sampler_state)
    (h : sample_iteration g st = Except.ok st1) : st1.rng.calls = st.rng.calls + 4 := by
  by_cases hp : g.patch_count = 0
  · rw [sample_iteration_fault g st (Or.inl hp)] at h
    exact absurd h (by simp)
  · by_cases hn : g.n = 0
    · rw [sample_iteration_fault g st (Or.inr hn)] at h
      exact absurd h (by simp)
    · rw [sample_iteration_eq g st hp hn] at h
      have c := sample_cell_calls _ _ _ _ _ h
      simp only at c
      omega

theorem run_updates_calls (g : gibbs_field) :
    ∀ (k : Nat) (st st1 : sampler_state), run_updates g k st = Except.ok st1 →
      st1.rng.calls = st.rng.calls + 4 * k := by
  intro k
  induction k with
  | zero =>
    intro st st1 h
    have h2 := Except.ok.inj h
    rw [← h2]
    rfl
  | succ k ih =>
    intro st st1 h
    simp only [run_updates] at h
    split at h
    · exact absurd h (by simp)
    · rename_i st2 h2
      have c1 := sample_iteration_calls g st st2 h2
      have c2 := ih st2 st1 h
      omega

theorem sample_iteration_well_formed (g : gibbs_field) (st : sampler_state)
    (hp : g.patch_count ≠ 0) (hn : g.n ≠ 0)
    (hwf : well_formed g st.patches) (hres : resolves_owners g) :
    ∃ st1 : sampler_state,
      sample_iteration g st = Except.ok st1 ∧ well_formed g st1.patches := by
  rw [sample_iteration_eq g st hp hn]
  obtain ⟨st1, h1, h2, _⟩ := sample_cell_well_formed g
    ⟨st.patches, ⟨st.rng.outputs, st.rng.calls + 3, st.rng.max⟩⟩ _ _ hwf (hres _ _)
  exact ⟨st1, h1, h2⟩

theorem run_updates_well_formed (g : gibbs_field) (hres : resolves_owners g) :
    ∀ (k : Nat) (st : sampler_state), (k = 0 ∨ (g.patch_count ≠ 0 ∧ g.n ≠ 0)) →
      well_formed g st.patches →
      ∃ st1 : sampler_state, run_updates g k st = Except.ok st1 ∧ well_formed g st1.patches := by
  intro k
  induction k with
  | zero => intro st _ hwf; exact ⟨st, rfl, hwf⟩
  | succ k ih =>
    intro st hk hwf
    have hpn : g.patch_count ≠ 0 ∧ g.n ≠ 0 := by
      rcases hk with hk | hk
      · omega
      · exact hk
    obtain ⟨st1, h1, h2⟩ := sample_iteration_well_formed g st hpn.1 hpn.2 hwf hres
    obtain ⟨st2, h3, h4⟩ := ih st1 (Or.inr hpn) h2
    refine ⟨st2, ?_, h4⟩
    simp only [run_updates, h1]
    exact h3

theorem sample_eq_run_updates (g : gibbs_field) (st : sampler_state) :
    sample g st = run_updates g (sweep_length g) st :=
  sample_loop_eq_run_updates g (sweep_length g) 0 st (by omega)

theorem sample_well_formed (g : gibbs_field) (st : sampler_state)
    (hwf : well_formed g st.patches) (hres : resolves_owners g) :
    ∃ st1 : sampler_state, sample g st = Except.ok st1 ∧ well_formed g st1.patches := by
  rw [sample_eq_run_updates]
  apply run_updates_well_formed g hres _ st _ hwf
  rcases Nat.eq_zero_or_pos (sweep_length g) with h | h
  · exact Or.inl h
  · exact Or.inr (sweep_length_pos g h)

theorem sample_times_well_formed (g : gibbs_field) (hres : resolves_owners g) :
    ∀ (k : Nat) (st : sampler_state), well_formed g st.patches →
      ∃ st1 : sampler_state, sample_times g k st = Except.ok st1 ∧ well_formed g st1.patches := by
  intro k
  induction k with
  | zero => intro st hwf; exact ⟨st, rfl, hwf⟩
  | succ k ih =>
    intro st hwf
    obtain ⟨st1, h1, h2⟩ := sample_well_formed g st hwf hres
    obtain ⟨st2, h3, h4⟩ := ih st1 h2
    refine ⟨st2, ?_, h4⟩
    simp only [sample_times, h1]
    exact h3

/-- In a well-formed world whose neighborhood designates the owning patch, an
item located at the cell is stored in the owning patch, at the index the
builder recorded, and its type is the type the builder recorded. -/
theorem occupant_view (g : gibbs_field) (patches : patch_store) (w : position)
    (a : item) (p : position)
    (hwf : well_formed g patches) (hres : owner_resolved g patches w)
    (ha : a ∈ patches p) (haw : a.location = w) :
    p = owning_patch g.n w
    ∧ (patches (owning_patch g.n w))[(build_distribution g patches
          (g.map.get_neighborhood patches w).neighbor_positions w).old_item_index]? = some a
    ∧ (build_distribution g patches
          (g.map.get_neighborhood patches w).neighbor_positions w).old_item_type
        = a.item_type := by
  have hp : owning_patch g.n w = p := haw ▸ hwf.2.2 p a ha
  rcases cell_view g patches w hwf hres with ⟨hfree, _⟩ | ⟨b, hb, hbw, hbt⟩
  · exact absurd haw (hfree p a ha)
  · obtain ⟨i, hi⟩ := List.mem_iff_getElem?.mp ha
    obtain ⟨_, hidx⟩ := hwf.1 _ p _ i b a hb hi (hbw.trans haw.symm)
    rw [← hp] at hi
    rw [hidx] at hb
    have hba : b = a := Option.some.inj (hb.symm.trans hi)
    subst hba
    refine ⟨hp.symm, ?_, hbt.symm⟩
    rw [hidx]
    exact hb

/-! ## Well-formedness of the concrete instances -/

theorem single_occupancy_empty_store : single_occupancy empty_store := by
  intro p q i j a b ha
  simp [empty_store] at ha

theorem single_occupancy_one_item_store : single_occupancy one_item_store := by
  intro p q i j a b ha hb _
  unfold one_item_store at ha hb
  by_cases hp : p = ⟨0, 0⟩
  · by_cases hq : q = ⟨0, 0⟩
    · rw [if_pos hp] at ha
      rw [if_pos hq] at hb
      have hi := (List.getElem?_eq_some.mp ha).1
      have hj := (List.getElem?_eq_some.mp hb).1
      simp only [List.length_singleton] at hi hj
      exact ⟨hp.trans hq.symm, by omega⟩
    · rw [if_neg hq] at hb
      simp at hb
  · rw [if_neg hp] at ha
    simp at ha

theorem well_formed_empty_store (g : gibbs_field) : well_formed g empty_store :=
  ⟨single_occupancy_empty_store, fun _ _ ha => by simp [empty_store] at ha,
    fun _ _ ha => by simp [empty_store] at ha⟩

theorem one_item_store_mem (p : position) (a : item) (ha : a ∈ one_item_store p) :
    a = ⟨0, ⟨0, 0⟩, 7, 9⟩ ∧ p = ⟨0, 0⟩ := by
  unfold one_item_store at ha
  split at ha
  · rename_i hp
    exact ⟨List.mem_singleton.mp ha, hp⟩
  · simp at ha

theorem well_formed_one_item_store : well_formed example_field one_item_store := by
  refine ⟨single_occupancy_one_item_store, ?_, ?_⟩
  · intro p a ha
    unfold one_item_store at ha
    split at ha
    · simp only [List.mem_singleton] at ha
      subst ha
      decide
    · simp at ha
  · intro p a ha
    unfold one_item_store at ha
    split at ha
    · rename_i hp
      simp only [List.mem_singleton] at ha
      subst ha
      subst hp
      decide
    · simp at ha

theorem resolves_owners_flat (g : gibbs_field) (h : g.map = flat_map g.n) :
    resolves_owners g := by
  intro patches w
  unfold owner_resolved
  rw [h]
  rfl

theorem patch_energy_flat (n : Nat) (w : position) (i : Nat) (items : List item) :
    patch_energy (flat_map n) w i items = 0 := by
  simp [patch_energy, flat_map]

/-- In the example the three categories are equally likely whatever the world
holds. -/
theorem example_field_sampled (st : sampler_state) (pp off : position) :
    cell_sampled_item_type example_field st pp off
      = select_categorical [1 / 3, 1 / 3, 1 / 3] (((st.rng.next).1 : ℚ) / 4) 3 := by
  unfold cell_sampled_item_type cell_distribution_of
  rw [build_distribution_log_probabilities]
  have h : ∀ i : Nat, float_sum example_field.rounding
      (example_field.map.intensity (world_position_of example_field.n pp off) i)
      (neighborhood_terms example_field.map st.patches
        (world_position_of example_field.n pp off) i
        (cell_neighborhood example_field st pp off).neighbor_positions) = 0 :=
    fun i => float_sum_flat example_field _ _ _ _ (fun _ _ => rfl) (fun _ _ _ _ => rfl)
  simp only [h]
  simp [example_field, normalize_exp, cell_random, uniform_draw, List.range_succ]
  norm_num

theorem example_field_sampled_zero (patches : patch_store) (pp off : position) :
    cell_sampled_item_type example_field ⟨patches, constant_rng 0⟩ pp off = 0 := by
  rw [example_field_sampled]
  norm_num [select_categorical, select_categorical_walk, constant_rng, RNG.next]

theorem example_field_sampled_one (patches : patch_store) (pp off : position) :
    cell_sampled_item_type example_field ⟨patches, constant_rng 2⟩ pp off = 1 := by
  rw [example_field_sampled]
  norm_num [select_categorical, select_categorical_walk, constant_rng, RNG.next]

theorem example_field_sampled_empty (patches : patch_store) (pp off : position) :
    cell_sampled_item_type example_field ⟨patches, constant_rng 3⟩ pp off = 2 := by
  rw [example_field_sampled]
  norm_num [select_categorical, select_categorical_walk, constant_rng, RNG.next]

/-! ## Claims about the builder -/

/-- C4: for every real item type `i`, the entry `log_probabilities[i]` the
builder computes is `intensity(position, i)` plus the sum of
`interaction(position, item.location, i, item.item_type)` over the items of the
neighbor patches returned by `get_neighborhood` whose location differs from the
target position, the sum being the one the loop accumulates: starting from the
intensity, one rounded float addition per such item, neighbor patch after
neighbor patch and item after item.  An item located at the target position is
filtered out and contributes nothing, and the entry at index `item_type_count`
is 0.  When no addition rounds, the entry is the intensity plus the exact
sum. -/
theorem log_probabilities_spec (g : gibbs_field) (st : sampler_state)
    (patch_position position_within_patch : position) :
    (∀ i : Nat, i < g.item_type_count →
      (cell_distribution_of g st patch_position position_within_patch).log_probabilities[i]?
        = some (List.foldl (fun acc t => g.rounding.round (acc + t))
            (g.map.intensity (world_position_of g.n patch_position position_within_patch) i)
            (List.map
              (fun a => g.map.interaction
                (world_position_of g.n patch_position position_within_patch)
                a.location i a.item_type)
              (List.filter
                (fun a => decide (a.location
                  ≠ world_position_of g.n patch_position position_within_patch))
                (List.flatMap
                  (cell_neighborhood g st patch_position
                    position_within_patch).neighbor_positions
                  (fun p => st.patches p))))))
    ∧ (cell_distribution_of g st patch_position position_within_patch).log_probabilities[
        g.item_type_count]? = some 0
    ∧ (cell_distribution_of g st patch_position position_within_patch).log_probabilities.length
        = g.item_type_count + 1
    ∧ ((∀ q : ℚ, g.rounding.round q = q) → ∀ i : Nat, i < g.item_type_count →
      (cell_distribution_of g st patch_position position_within_patch).log_probabilities[i]?
        = some (g.map.intensity (world_position_of g.n patch_position position_within_patch) i
            + (List.map
                (fun p => (List.map
                  (fun a => g.map.interaction
                    (world_position_of g.n patch_position position_within_patch)
                    a.location i a.item_type)
                  (List.filter
                    (fun a => decide (a.location
                      ≠ world_position_of g.n patch_position position_within_patch))
                    (st.patches p))).sum)
                (cell_neighborhood g st patch_position
                  position_within_patch).neighbor_positions).sum)) := by
  have hentry : ∀ i : Nat, i < g.item_type_count →
      (cell_distribution_of g st patch_position position_within_patch).log_probabilities[i]?
        = some (float_sum g.rounding
            (g.map.intensity (world_position_of g.n patch_position position_within_patch) i)
            (neighborhood_terms g.map st.patches
              (world_position_of g.n patch_position position_within_patch) i
              (cell_neighborhood g st patch_position
                position_within_patch).neighbor_positions)) := by
    intro i hi
    unfold cell_distribution_of
    rw [build_distribution_log_probabilities,
      List.getElem?_append_left (by simpa using hi)]
    simp [hi]
  refine ⟨?_, ?_, ?_, ?_⟩
  · intro i hi
    rw [hentry i hi, neighborhood_terms_eq]
    rfl
  · unfold cell_distribution_of
    rw [build_distribution_log_probabilities, List.getElem?_append_right (by simp)]
    simp
  · unfold cell_distribution_of
    rw [build_distribution_log_probabilities]
    simp
  · intro hexact i hi
    rw [hentry i hi, float_sum_exact g.rounding hexact, neighborhood_terms_sum]
    rfl

/-- Witness of C4: the example sampler, whose additions do not round, at the
free cell `(1, 0)` next to the item at `(0, 0)`: the entry of type 0 is the
intensity plus the one interaction term. -/
theorem log_probabilities_spec_witness :
    (∀ q : ℚ, example_field.rounding.round q = q)
    ∧ (cell_distribution_of example_field ⟨one_item_store, constant_rng 0⟩
        ⟨0, 0⟩ ⟨1, 0⟩).log_probabilities[0]?
      = some (example_field.map.intensity (world_position_of example_field.n ⟨0, 0⟩ ⟨1, 0⟩) 0
          + (List.map
              (fun p => (List.map
                (fun a => example_field.map.interaction
                  (world_position_of example_field.n ⟨0, 0⟩ ⟨1, 0⟩) a.location 0 a.item_type)
                (List.filter
                  (fun a => decide (a.location
                    ≠ world_position_of example_field.n ⟨0, 0⟩ ⟨1, 0⟩))
                  (one_item_store p))).sum)
              (cell_neighborhood example_field ⟨one_item_store, constant_rng 0⟩
                ⟨0, 0⟩ ⟨1, 0⟩).neighbor_positions).sum) :=
  ⟨fun _ => rfl,
    (log_probabilities_spec example_field ⟨one_item_store, constant_rng 0⟩
      ⟨0, 0⟩ ⟨1, 0⟩).2.2.2 (fun _ => rfl) 0 (by decide)⟩

/-- C5: in a world with single occupancy and `item_type_count >= 1`, after the
builder has run, `old_item_type` is `item_type_count` when no item of a
neighbor patch is located at the target position; and when some neighbor patch
`p` stores an item `a` located there, at index `m` of its collection, then
`old_item_type` is the type of `a` and `old_item_index` is `m`. -/
theorem occupant_detection (g : gibbs_field) (st : sampler_state)
    (patch_position position_within_patch : position)
    (hso : single_occupancy st.patches) (hcount : 1 ≤ g.item_type_count) :
    ((∀ (p : position),
        p ∈ (cell_neighborhood g st patch_position position_within_patch).neighbor_positions →
        ∀ (a : item), a ∈ st.patches p →
          a.location ≠ world_position_of g.n patch_position position_within_patch) →
      (cell_distribution_of g st patch_position position_within_patch).old_item_type
        = g.item_type_count)
    ∧ (∀ (p : position) (m : Nat) (a : item),
        p ∈ (cell_neighborhood g st patch_position position_within_patch).neighbor_positions →
        (st.patches p)[m]? = some a →
        a.location = world_position_of g.n patch_position position_within_patch →
        (cell_distribution_of g st patch_position position_within_patch).old_item_type
            = a.item_type
          ∧ (cell_distribution_of g st patch_position position_within_patch).old_item_index
            = m) := by
  unfold cell_distribution_of
  rcases build_distribution_old g st.patches
      (cell_neighborhood g st patch_position position_within_patch).neighbor_positions
      (world_position_of g.n patch_position position_within_patch)
    with ⟨h0, _, h2⟩ | ⟨q, hq, b, hb, hbw, hbt⟩
  · refine ⟨fun _ => h2, ?_⟩
    intro p m a hp ha haw
    rcases h0 with h0 | h0
    · omega
    · exact absurd haw (h0 p hp a (List.getElem?_mem ha))
  · refine ⟨fun hno => absurd hbw (hno q hq b (List.getElem?_mem hb)), ?_⟩
    intro p m a hp ha haw
    obtain ⟨hqp, hidx⟩ := hso q p _ m b a hb ha (hbw.trans haw.symm)
    subst hqp
    rw [hidx] at hb
    have hba : b = a := Option.some.inj (hb.symm.trans ha)
    subst hba
    exact ⟨hbt.symm, hidx⟩

/-- Witness of C5: the world with one item at `(0, 0)`, the update targeted at
that cell. -/
theorem occupant_detection_witness :
    single_occupancy one_item_store ∧ 1 ≤ example_field.item_type_count
    ∧ (cell_distribution_of example_field ⟨one_item_store, constant_rng 0⟩
          ⟨0, 0⟩ ⟨0, 0⟩).old_item_type = 0
    ∧ (cell_distribution_of example_field ⟨one_item_store, constant_rng 0⟩
          ⟨0, 0⟩ ⟨0, 0⟩).old_item_index = 0 :=
  ⟨single_occupancy_one_item_store, by decide,
    (occupant_detection example_field ⟨one_item_store, constant_rng 0⟩ ⟨0, 0⟩ ⟨0, 0⟩
      single_occupancy_one_item_store (by decide)).2 ⟨0, 0⟩ 0 ⟨0, ⟨0, 0⟩, 7, 9⟩
      (by decide) (by decide) (by decide)⟩

/-! ## Claims about the sweep and the invariant -/

/-- C1: single occupancy is preserved.  In a world with at most one item per
world position, where every stored item has a real type and is stored in the
patch owning its location, with `get_neighborhood` designating the owning patch
as `patch_index`: for every target cell, the mutator returns a world with
single occupancy for every sampled category, so does `sample_cell`, and so does
any number of calls of `sample`. -/
theorem single_occupancy_preserved (g : gibbs_field) (st : sampler_state)
    (hso : single_occupancy st.patches) (hrt : real_types g st.patches)
    (hpc : patch_containment g st.patches) (hres : resolves_owners g) :
    (∀ (patch_position position_within_patch : position) (sampled_item_type : Nat),
      ∃ patches1 : patch_store,
        mutate_cell g st.patches (cell_neighborhood g st patch_position position_within_patch)
          (world_position_of g.n patch_position position_within_patch)
          (cell_distribution_of g st patch_position position_within_patch).old_item_index
          (cell_distribution_of g st patch_position position_within_patch).old_item_type
          sampled_item_type = Except.ok patches1
        ∧ single_occupancy patches1)
    ∧ (∀ (patch_position position_within_patch : position),
      ∃ st1 : sampler_state,
        sample_cell g st patch_position position_within_patch = Except.ok st1
        ∧ single_occupancy st1.patches)
    ∧ (∀ k : Nat, ∃ st1 : sampler_state,
        sample_times g k st = Except.ok st1 ∧ single_occupancy st1.patches) := by
  have hwf : well_formed g st.patches := ⟨hso, hrt, hpc⟩
  refine ⟨?_, ?_, ?_⟩
  · intro pp off s
    obtain ⟨patches1, h1, h2⟩ := mutate_cell_well_formed g st.patches
      (world_position_of g.n pp off) s hwf (hres _ _)
    exact ⟨patches1, h1, h2.1⟩
  · intro pp off
    obtain ⟨st1, h1, h2, _⟩ := sample_cell_well_formed g st pp off hwf (hres _ _)
    exact ⟨st1, h1, h2.1⟩
  · intro k
    obtain ⟨st1, h1, h2⟩ := sample_times_well_formed g hres k st hwf
    exact ⟨st1, h1, h2.1⟩

/-- Witness of C1: the world with one item, an update of the occupied cell and
three calls of `sample`. -/
theorem single_occupancy_preserved_witness :
    well_formed example_field one_item_store ∧ resolves_owners example_field
    ∧ (∃ st1 : sampler_state,
        sample_cell example_field ⟨one_item_store, constant_rng 2⟩ ⟨0, 0⟩ ⟨0, 0⟩
          = Except.ok st1 ∧ single_occupancy st1.patches)
    ∧ (∃ st1 : sampler_state,
        sample_times example_field 3 ⟨one_item_store, constant_rng 2⟩ = Except.ok st1
          ∧ single_occupancy st1.patches) :=
  ⟨well_formed_one_item_store, resolves_owners_flat example_field rfl,
    (single_occupancy_preserved example_field ⟨one_item_store, constant_rng 2⟩
      well_formed_one_item_store.1 well_formed_one_item_store.2.1
      well_formed_one_item_store.2.2 (resolves_owners_flat example_field rfl)).2.1
      ⟨0, 0⟩ ⟨0, 0⟩,
    (single_occupancy_preserved example_field ⟨one_item_store, constant_rng 2⟩
      well_formed_one_item_store.1 well_formed_one_item_store.2.1
      well_formed_one_item_store.2.2 (resolves_owners_flat example_field rfl)).2.2 3⟩

/-- C2 as stated fails: with `patch_count = 1` and `n = 65536` the product is
`2 ^ 32`, the 32-bit loop bound is 0, and `sample` returns at once without any
update, which is not what `2 ^ 32` successive updates do. -/
theorem sweep_length_wraps :
    wide_field.patch_count * wide_field.n * wide_field.n = 4294967296
    ∧ sample wide_field ⟨empty_store, constant_rng 0⟩
        = Except.ok ⟨empty_store, constant_rng 0⟩
    ∧ sample wide_field ⟨empty_store, constant_rng 0⟩
        ≠ run_updates wide_field (wide_field.patch_count * wide_field.n * wide_field.n)
            ⟨empty_store, constant_rng 0⟩ := by
  have h0 : sweep_length wide_field = 0 := by decide
  have h1 : sample wide_field ⟨empty_store, constant_rng 0⟩
      = Except.ok ⟨empty_store, constant_rng 0⟩ := by
    rw [sample_eq_run_updates, h0]
    rfl
  refine ⟨by decide, h1, ?_⟩
  intro h
  rw [h1] at h
  have hc := run_updates_calls wide_field _ _ _ h.symm
  have hp : wide_field.patch_count * wide_field.n * wide_field.n = 4294967296 := by decide
  rw [hp] at hc
  omega

/-- C2, amended: one call of `sample` performs exactly
`(patch_count * n * n) mod 2 ^ 32` single-site updates, applied strictly one
after another, each to the state left by the previous one; when it returns it
has called the generator four times per update; and the count is the
mathematical product whenever that is below `2 ^ 32`. -/
theorem sample_sweep_length (g : gibbs_field) (st : sampler_state) :
    sample g st = run_updates g ((g.patch_count * g.n * g.n) % 2 ^ 32) st
    ∧ (∀ st1 : sampler_state, sample g st = Except.ok st1 →
        st1.rng.calls = st.rng.calls + 4 * ((g.patch_count * g.n * g.n) % 2 ^ 32))
    ∧ (g.patch_count * g.n * g.n < 2 ^ 32 →
        sample g st = run_updates g (g.patch_count * g.n * g.n) st) := by
  have h : sample g st = run_updates g ((g.patch_count * g.n * g.n) % 2 ^ 32) st := by
    rw [sample_eq_run_updates, sweep_length_eq]
  refine ⟨h, ?_, ?_⟩
  · intro st1 h1
    exact run_updates_calls g _ st st1 (h ▸ h1)
  · intro hlt
    rw [h, Nat.mod_eq_of_lt hlt]

/-- Witness of C2, amended: the example sampler, whose product `1 * 2 * 2`
does not wrap, performs four updates and calls the generator sixteen times. -/
theorem sample_sweep_length_witness :
    example_field.patch_count * example_field.n * example_field.n < 2 ^ 32
    ∧ sample example_field ⟨one_item_store, constant_rng 2⟩
        = run_updates example_field 4 ⟨one_item_store, constant_rng 2⟩
    ∧ ∃ st1 : sampler_state,
        sample example_field ⟨one_item_store, constant_rng 2⟩ = Except.ok st1
        ∧ st1.rng.calls = 16 := by
  refine ⟨by decide,
    (sample_sweep_length example_field ⟨one_item_store, constant_rng 2⟩).2.2 (by decide), ?_⟩
  obtain ⟨st1, h1, _⟩ := sample_well_formed example_field
    ⟨one_item_store, constant_rng 2⟩ well_formed_one_item_store
    (resolves_owners_flat example_field rfl)
  exact ⟨st1, h1,
    (sample_sweep_length example_field ⟨one_item_store, constant_rng 2⟩).2.1 st1 h1⟩

/-! ## Claims about the occupancy mutator -/

/-- C3: no-op stability.  With the patch at `patch_index` resolved, if the
sampled category equals the type of the occupant of the target cell (the item
of a neighbor patch located there), or the cell is unoccupied and the sampled
category is the sentinel `item_type_count`, then the update returns the very
same patches: every collection is identical, reserved metadata included, and
nothing is removed or re-created. -/
theorem no_op_stability (g : gibbs_field) (st : sampler_state)
    (patch_position position_within_patch cur : position)
    (hcur : current_patch_of (cell_neighborhood g st patch_position position_within_patch)
      = Except.ok cur)
    (hsame :
      ((∀ (p : position),
          p ∈ (cell_neighborhood g st patch_position position_within_patch).neighbor_positions →
          ∀ (a : item), a ∈ st.patches p →
            a.location ≠ world_position_of g.n patch_position position_within_patch)
        ∧ cell_sampled_item_type g st patch_position position_within_patch
            = g.item_type_count)
      ∨ ((∃ (p : position) (a : item),
            p ∈ (cell_neighborhood g st patch_position position_within_patch).neighbor_positions
            ∧ a ∈ st.patches p
            ∧ a.location = world_position_of g.n patch_position position_within_patch)
        ∧ (∀ (p : position),
            p ∈ (cell_neighborhood g st patch_position
              position_within_patch).neighbor_positions →
            ∀ (a : item), a ∈ st.patches p →
              a.location = world_position_of g.n patch_position position_within_patch →
              a.item_type = cell_sampled_item_type g st patch_position position_within_patch))) :
    sample_cell g st patch_position position_within_patch
      = Except.ok ⟨st.patches, (st.rng.next).2⟩ := by
  have key : mutate_cell g st.patches
      (cell_neighborhood g st patch_position position_within_patch)
      (world_position_of g.n patch_position position_within_patch)
      (cell_distribution_of g st patch_position position_within_patch).old_item_index
      (cell_distribution_of g st patch_position position_within_patch).old_item_type
      (cell_sampled_item_type g st patch_position position_within_patch)
        = Except.ok st.patches := by
    rcases build_distribution_old g st.patches
        (cell_neighborhood g st patch_position position_within_patch).neighbor_positions
        (world_position_of g.n patch_position position_within_patch)
      with ⟨h0, _, h2⟩ | ⟨q, hq, b, hb, hbw, hbt⟩
    · rcases hsame with ⟨_, hs⟩ | ⟨⟨p, a, hp, ha, haw⟩, _⟩
      · exact mutate_cell_same g _ _ _ _ _ _ cur hcur (h2.trans hs.symm)
      · rcases h0 with h0 | h0
        · apply mutate_cell_keep g _ _ _ _ _ _ cur hcur
          · unfold cell_distribution_of
            omega
          · omega
        · exact absurd haw (h0 p hp a ha)
    · rcases hsame with ⟨hfree, _⟩ | ⟨_, hall⟩
      · exact absurd hbw (hfree q hq b (List.getElem?_mem hb))
      · exact mutate_cell_same g _ _ _ _ _ _ cur hcur
          (hbt.symm.trans (hall q hq b (List.getElem?_mem hb) hbw))
  rw [sample_cell_eq, key]

/-- Witness of C3: the occupied cell `(0, 0)` holds type 0 and type 0 is
sampled. -/
theorem no_op_stability_witness :
    cell_sampled_item_type example_field ⟨one_item_store, constant_rng 0⟩ ⟨0, 0⟩ ⟨0, 0⟩ = 0
    ∧ sample_cell example_field ⟨one_item_store, constant_rng 0⟩ ⟨0, 0⟩ ⟨0, 0⟩
        = Except.ok ⟨one_item_store, ((constant_rng 0).next).2⟩ :=
  ⟨example_field_sampled_zero _ _ _,
    no_op_stability example_field ⟨one_item_store, constant_rng 0⟩ ⟨0, 0⟩ ⟨0, 0⟩ ⟨0, 0⟩ rfl
      (Or.inr ⟨⟨⟨0, 0⟩, ⟨0, ⟨0, 0⟩, 7, 9⟩, by decide, by decide, by decide⟩, by
        intro p _ a ha _
        rw [example_field_sampled_zero, (one_item_store_mem p a ha).1]⟩)⟩

/-- C7: insertion.  With the patch at `patch_index` resolved, if the target
cell is unoccupied and the sampled category `s` is a real type, the update
returns, the collection of the patch at `patch_index` is the old one followed
by the item `(s, world_position, 0, 0)`, and every other patch is unchanged. -/
theorem sample_cell_insertion (g : gibbs_field) (st : sampler_state)
    (patch_position position_within_patch cur : position)
    (hcur : current_patch_of (cell_neighborhood g st patch_position position_within_patch)
      = Except.ok cur)
    (hfree : ∀ (p : position),
      p ∈ (cell_neighborhood g st patch_position position_within_patch).neighbor_positions →
      ∀ (a : item), a ∈ st.patches p →
        a.location ≠ world_position_of g.n patch_position position_within_patch)
    (hs : cell_sampled_item_type g st patch_position position_within_patch
      < g.item_type_count) :
    ∃ st1 : sampler_state,
      sample_cell g st patch_position position_within_patch = Except.ok st1
      ∧ st1.patches cur = st.patches cur
          ++ [⟨cell_sampled_item_type g st patch_position position_within_patch,
              world_position_of g.n patch_position position_within_patch, 0, 0⟩]
      ∧ (∀ p : position, p ≠ cur → st1.patches p = st.patches p)
      ∧ st1.rng = (st.rng.next).2 := by
  have hot : (cell_distribution_of g st patch_position position_within_patch).old_item_type
      = g.item_type_count := by
    rcases build_distribution_old g st.patches
        (cell_neighborhood g st patch_position position_within_patch).neighbor_positions
        (world_position_of g.n patch_position position_within_patch)
      with ⟨_, _, h2⟩ | ⟨q, hq, b, hb, hbw, _⟩
    · exact h2
    · exact absurd hbw (hfree q hq b (List.getElem?_mem hb))
  have key := mutate_cell_add g st.patches
      (cell_neighborhood g st patch_position position_within_patch)
      (world_position_of g.n patch_position position_within_patch)
      (cell_distribution_of g st patch_position position_within_patch).old_item_index
      (cell_distribution_of g st patch_position position_within_patch).old_item_type
      (cell_sampled_item_type g st patch_position position_within_patch) cur hcur
      (by omega) hs
  refine ⟨⟨_, (st.rng.next).2⟩, by rw [sample_cell_eq, key], ?_, ?_, rfl⟩
  · simp
  · intro p hp
    simp [Function.update_noteq hp]

/-- Witness of C7: type 1 is sampled for the free cell `(1, 1)` of the empty
world. -/
theorem sample_cell_insertion_witness :
    cell_sampled_item_type example_field ⟨empty_store, constant_rng 2⟩ ⟨0, 0⟩ ⟨1, 1⟩
      < example_field.item_type_count
    ∧ ∃ st1 : sampler_state,
      sample_cell example_field ⟨empty_store, constant_rng 2⟩ ⟨0, 0⟩ ⟨1, 1⟩ = Except.ok st1
      ∧ st1.patches ⟨0, 0⟩ = empty_store ⟨0, 0⟩
          ++ [⟨cell_sampled_item_type example_field ⟨empty_store, constant_rng 2⟩
                ⟨0, 0⟩ ⟨1, 1⟩,
              world_position_of example_field.n ⟨0, 0⟩ ⟨1, 1⟩, 0, 0⟩]
      ∧ (∀ p : position, p ≠ ⟨0, 0⟩ → st1.patches p = empty_store p)
      ∧ st1.rng = ((constant_rng 2).next).2 :=
  ⟨by rw [example_field_sampled_one]; decide,
    sample_cell_insertion example_field ⟨empty_store, constant_rng 2⟩ ⟨0, 0⟩ ⟨1, 1⟩ ⟨0, 0⟩ rfl
      (by intro p _ a ha; simp [empty_store] at ha)
      (by rw [example_field_sampled_one]; decide)⟩

/-- C6: removal.  In a well-formed world (single occupancy, real stored types,
containment) whose neighborhood designates the owning patch, if the target cell
is occupied by the item `a` and the sampled category is the sentinel, the
update returns; the entry it removes, the one at `old_item_index` of the patch
at `patch_index`, is `a`; afterwards no item of any patch is located at the
cell, the owning patch holds, as a multiset, its previous collection minus `a`,
and the other patches are unchanged. -/
theorem sample_cell_removal (g : gibbs_field) (st : sampler_state)
    (patch_position position_within_patch : position) (a : item) (p : position)
    (hso : single_occupancy st.patches) (hrt : real_types g st.patches)
    (hpc : patch_containment g st.patches)
    (hres : owner_resolved g st.patches
      (world_position_of g.n patch_position position_within_patch))
    (ha : a ∈ st.patches p)
    (haw : a.location = world_position_of g.n patch_position position_within_patch)
    (hs : cell_sampled_item_type g st patch_position position_within_patch
      = g.item_type_count) :
    ∃ st1 : sampler_state,
      sample_cell g st patch_position position_within_patch = Except.ok st1
      ∧ (st.patches (owning_patch g.n
            (world_position_of g.n patch_position position_within_patch)))[
          (cell_distribution_of g st patch_position position_within_patch).old_item_index]?
          = some a
      ∧ (∀ (q : position) (b : item), b ∈ st1.patches q →
          b.location ≠ world_position_of g.n patch_position position_within_patch)
      ∧ ((st1.patches (owning_patch g.n
            (world_position_of g.n patch_position position_within_patch)) : List item)
          : Multiset item)
        = ((st.patches (owning_patch g.n
            (world_position_of g.n patch_position position_within_patch)) : List item)
          : Multiset item).erase a
      ∧ (∀ q : position,
          q ≠ owning_patch g.n (world_position_of g.n patch_position position_within_patch) →
          st1.patches q = st.patches q) := by
  have hwf : well_formed g st.patches := ⟨hso, hrt, hpc⟩
  obtain ⟨_, hidx, hot⟩ := occupant_view g st.patches _ a p hwf hres ha haw
  have hreal : a.item_type < g.item_type_count := hrt p a ha
  have hoi := (List.getElem?_eq_some.mp hidx).1
  have key := mutate_cell_remove g st.patches
      (cell_neighborhood g st patch_position position_within_patch)
      (world_position_of g.n patch_position position_within_patch)
      (cell_distribution_of g st patch_position position_within_patch).old_item_index
      (cell_distribution_of g st patch_position position_within_patch).old_item_type
      (cell_sampled_item_type g st patch_position position_within_patch) _ hres
      (by unfold cell_distribution_of cell_neighborhood; omega)
      (by unfold cell_distribution_of cell_neighborhood; omega) hoi (by omega)
  have hloc := array_remove_locations _ _ a hidx (single_occupancy_nodup st.patches hso _)
  refine ⟨⟨_, (st.rng.next).2⟩, by rw [sample_cell_eq, key], hidx, ?_, ?_, ?_⟩
  · intro q b hb hbw
    by_cases hq : q = owning_patch g.n
        (world_position_of g.n patch_position position_within_patch)
    · subst hq
      simp only [Function.update_same] at hb
      exact hloc.2 b hb (hbw.trans haw.symm)
    · simp only [Function.update_noteq hq] at hb
      exact hq (hbw ▸ (hpc q b hb).symm)
  · simp only [Function.update_same, Multiset.coe_erase]
    exact Multiset.coe_eq_coe.mpr (array_remove_perm_erase _ _ a hidx)
  · intro q hq
    simp [Function.update_noteq hq]

/-- Witness of C6: the sentinel is sampled for the occupied cell `(0, 0)`. -/
theorem sample_cell_removal_witness :
    cell_sampled_item_type example_field ⟨one_item_store, constant_rng 3⟩ ⟨0, 0⟩ ⟨0, 0⟩
      = example_field.item_type_count
    ∧ ∃ st1 : sampler_state,
      sample_cell example_field ⟨one_item_store, constant_rng 3⟩ ⟨0, 0⟩ ⟨0, 0⟩
        = Except.ok st1
      ∧ (one_item_store (owning_patch example_field.n
            (world_position_of example_field.n ⟨0, 0⟩ ⟨0, 0⟩)))[
          (cell_distribution_of example_field ⟨one_item_store, constant_rng 3⟩
            ⟨0, 0⟩ ⟨0, 0⟩).old_item_index]? = some ⟨0, ⟨0, 0⟩, 7, 9⟩
      ∧ (∀ (q : position) (b : item), b ∈ st1.patches q →
          b.location ≠ world_position_of example_field.n ⟨0, 0⟩ ⟨0, 0⟩)
      ∧ ((st1.patches (owning_patch example_field.n
            (world_position_of example_field.n ⟨0, 0⟩ ⟨0, 0⟩)) : List item)
          : Multiset item)
        = ((one_item_store (owning_patch example_field.n
            (world_position_of example_field.n ⟨0, 0⟩ ⟨0, 0⟩)) : List item)
          : Multiset item).erase ⟨0, ⟨0, 0⟩, 7, 9⟩
      ∧ (∀ q : position,
          q ≠ owning_patch example_field.n
            (world_position_of example_field.n ⟨0, 0⟩ ⟨0, 0⟩) →
          st1.patches q = one_item_store q) :=
  ⟨example_field_sampled_empty _ _ _,
    sample_cell_removal example_field ⟨one_item_store, constant_rng 3⟩ ⟨0, 0⟩ ⟨0, 0⟩
      ⟨0, ⟨0, 0⟩, 7, 9⟩ ⟨0, 0⟩
      well_formed_one_item_store.1 well_formed_one_item_store.2.1
      well_formed_one_item_store.2.2 (resolves_owners_flat example_field rfl _ _)
      (by decide) (by decide) (example_field_sampled_empty _ _ _)⟩

/-- C8: replacement.  In a well-formed world whose neighborhood designates the
owning patch, if the target cell is occupied by the item `a` and the sampled
category `b` is a real type other than the type of `a`, the update returns; the
owning patch holds, as a multiset, its previous collection with `a` replaced by
`(b, world_position, 0, 0)`, its size is unchanged, the only item located at
the cell in any patch is that new item in the owning patch, and the other
patches are unchanged. -/
theorem sample_cell_replacement (g : gibbs_field) (st : sampler_state)
    (patch_position position_within_patch : position) (a : item) (p : position)
    (hso : single_occupancy st.patches) (hrt : real_types g st.patches)
    (hpc : patch_containment g st.patches)
    (hres : owner_resolved g st.patches
      (world_position_of g.n patch_position position_within_patch))
    (ha : a ∈ st.patches p)
    (haw : a.location = world_position_of g.n patch_position position_within_patch)
    (hb : cell_sampled_item_type g st patch_position position_within_patch
      < g.item_type_count)
    (hne : cell_sampled_item_type g st patch_position position_within_patch
      ≠ a.item_type) :
    ∃ st1 : sampler_state,
      sample_cell g st patch_position position_within_patch = Except.ok st1
      ∧ ((st1.patches (owning_patch g.n
            (world_position_of g.n patch_position position_within_patch)) : List item)
          : Multiset item)
        = (⟨cell_sampled_item_type g st patch_position position_within_patch,
              world_position_of g.n patch_position position_within_patch, 0, 0⟩ : item)
          ::ₘ ((st.patches (owning_patch g.n
            (world_position_of g.n patch_position position_within_patch)) : List item)
          : Multiset item).erase a
      ∧ (st1.patches (owning_patch g.n
            (world_position_of g.n patch_position position_within_patch))).length
        = (st.patches (owning_patch g.n
            (world_position_of g.n patch_position position_within_patch))).length
      ∧ (∀ q : position,
          (st1.patches q).filter (fun c => decide (c.location
              = world_position_of g.n patch_position position_within_patch))
            = if q = owning_patch g.n
                  (world_position_of g.n patch_position position_within_patch)
              then [⟨cell_sampled_item_type g st patch_position position_within_patch,
                world_position_of g.n patch_position position_within_patch, 0, 0⟩]
              else [])
      ∧ (∀ q : position,
          q ≠ owning_patch g.n (world_position_of g.n patch_position position_within_patch) →
          st1.patches q = st.patches q) := by
  have hwf : well_formed g st.patches := ⟨hso, hrt, hpc⟩
  obtain ⟨_, hidx, hot⟩ := occupant_view g st.patches _ a p hwf hres ha haw
  have hreal : a.item_type < g.item_type_count := hrt p a ha
  have hoi := (List.getElem?_eq_some.mp hidx).1
  have key := mutate_cell_replace g st.patches
      (cell_neighborhood g st patch_position position_within_patch)
      (world_position_of g.n patch_position position_within_patch)
      (cell_distribution_of g st patch_position position_within_patch).old_item_index
      (cell_distribution_of g st patch_position position_within_patch).old_item_type
      (cell_sampled_item_type g st patch_position position_within_patch) _ hres
      (by unfold cell_distribution_of cell_neighborhood; omega)
      (by unfold cell_distribution_of cell_neighborhood; omega) hoi hb
  have hloc := array_remove_locations _ _ a hidx (single_occupancy_nodup st.patches hso _)
  have hlen := array_remove_length _ _ a hidx
  refine ⟨⟨_, (st.rng.next).2⟩, by rw [sample_cell_eq, key], ?_, ?_, ?_, ?_⟩
  · simp only [Function.update_same, Multiset.coe_erase, Multiset.cons_coe]
    apply Multiset.coe_eq_coe.mpr
    exact (List.perm_append_singleton _ _).trans
      ((array_remove_perm_erase _ _ a hidx).cons _)
  · simp only [Function.update_same, List.length_append, List.length_singleton]
    exact hlen
  · intro q
    by_cases hq : q = owning_patch g.n
        (world_position_of g.n patch_position position_within_patch)
    · subst hq
      simp only [Function.update_same, if_true, List.filter_append]
      have hnil : List.filter (fun c => decide (c.location
          = world_position_of g.n patch_position position_within_patch))
          (array_remove (st.patches (owning_patch g.n
            (world_position_of g.n patch_position position_within_patch)))
            (cell_distribution_of g st patch_position position_within_patch).old_item_index)
          = [] := by
        rw [List.filter_eq_nil_iff]
        intro c hc
        simp only [decide_eq_true_eq]
        intro h
        exact hloc.2 c hc (h.trans haw.symm)
      rw [hnil]
      simp
    · simp only [Function.update_noteq hq, if_neg hq]
      rw [List.filter_eq_nil_iff]
      intro c hc
      simp only [decide_eq_true_eq]
      intro h
      exact hq (h ▸ (hpc q c hc).symm)
  · intro q hq
    simp [Function.update_noteq hq]

/-- Witness of C8: type 1 is sampled for the cell `(0, 0)` occupied by an item
of type 0. -/
theorem sample_cell_replacement_witness :
    cell_sampled_item_type example_field ⟨one_item_store, constant_rng 2⟩ ⟨0, 0⟩ ⟨0, 0⟩ = 1
    ∧ ∃ st1 : sampler_state,
      sample_cell example_field ⟨one_item_store, constant_rng 2⟩ ⟨0, 0⟩ ⟨0, 0⟩
        = Except.ok st1
      ∧ (st1.patches (owning_patch example_field.n
            (world_position_of example_field.n ⟨0, 0⟩ ⟨0, 0⟩))).length
        = (one_item_store (owning_patch example_field.n
            (world_position_of example_field.n ⟨0, 0⟩ ⟨0, 0⟩))).length :=
  ⟨example_field_sampled_one _ _ _,
    (sample_cell_replacement example_field ⟨one_item_store, constant_rng 2⟩ ⟨0, 0⟩ ⟨0, 0⟩
      ⟨0, ⟨0, 0⟩, 7, 9⟩ ⟨0, 0⟩
      well_formed_one_item_store.1 well_formed_one_item_store.2.1
      well_formed_one_item_store.2.2 (resolves_owners_flat example_field rfl _ _)
      (by decide) (by decide)
      (by rw [example_field_sampled_one]; decide)
      (by rw [example_field_sampled_one]; decide)).imp
      (fun _ h => ⟨h.1, h.2.2.1⟩)⟩

/-! ## Claims about the categorical draw -/

theorem cumulative_cons (p : ℚ) (rest : List ℚ) (j : Nat) :
    cumulative (p :: rest) (j + 1) = p + cumulative rest j := by
  simp [cumulative]

theorem cumulative_zero (p : ℚ) (rest : List ℚ) : cumulative (p :: rest) 0 = p := by
  simp [cumulative]

theorem select_categorical_walk_spec (u : ℚ) (rest : List ℚ) :
    ∀ (p acc : ℚ) (i : Nat),
      i ≤ select_categorical_walk u (p :: rest) acc i
      ∧ select_categorical_walk u (p :: rest) acc i ≤ i + rest.length
      ∧ (∀ j : Nat, j < select_categorical_walk u (p :: rest) acc i - i →
          ¬ u < acc + cumulative (p :: rest) j)
      ∧ ((∃ j : Nat, j ≤ rest.length ∧ u < acc + cumulative (p :: rest) j) →
          u < acc + cumulative (p :: rest) (select_categorical_walk u (p :: rest) acc i - i))
      ∧ ((∀ j : Nat, j ≤ rest.length → ¬ u < acc + cumulative (p :: rest) j) →
          select_categorical_walk u (p :: rest) acc i = i + rest.length) := by
  induction rest with
  | nil =>
    intro p acc i
    have hr : select_categorical_walk u [p] acc i = i := by
      simp [select_categorical_walk]
    rw [hr]
    refine ⟨le_refl _, by simp, ?_, ?_, by simp⟩
    · intro j hj
      omega
    · rintro ⟨j, hj, h⟩
      have : j = 0 := by simpa using hj
      subst this
      simpa using h
  | cons q rest ih =>
    intro p acc i
    by_cases hlt : u < acc + p
    · have hr : select_categorical_walk u (p :: q :: rest) acc i = i := by
        simp [select_categorical_walk, hlt]
      rw [hr]
      refine ⟨le_refl _, by omega, ?_, ?_, ?_⟩
      · intro j hj
        omega
      · intro _
        simpa [cumulative_zero] using hlt
      · intro h
        exact absurd (by simpa [cumulative_zero] using hlt) (h 0 (by omega))
    · have hr : select_categorical_walk u (p :: q :: rest) acc i
          = select_categorical_walk u (q :: rest) (acc + p) (i + 1) := by
        simp [select_categorical_walk, hlt]
      rw [hr]
      obtain ⟨h1, h2, h3, h4, h5⟩ := ih q (acc + p) (i + 1)
      have hsub : select_categorical_walk u (q :: rest) (acc + p) (i + 1) - i
          = (select_categorical_walk u (q :: rest) (acc + p) (i + 1) - (i + 1)) + 1 := by
        omega
      refine ⟨by omega, by simp only [List.length_cons]; omega, ?_, ?_, ?_⟩
      · intro j hj
        cases j with
        | zero => simpa [cumulative_zero] using hlt
        | succ j =>
          rw [cumulative_cons, ← add_assoc]
          exact h3 j (by omega)
      · rintro ⟨j, hj, h⟩
        rw [hsub, cumulative_cons, ← add_assoc]
        apply h4
        cases j with
        | zero => exact absurd (by simpa [cumulative_zero] using h) hlt
        | succ j =>
          refine ⟨j, by simp only [List.length_cons] at hj; omega, ?_⟩
          rw [cumulative_cons, ← add_assoc] at h
          exact h
      · intro h
        have := h5 (fun j hj => by
          have := h (j + 1) (by simp only [List.length_cons]; omega)
          rw [cumulative_cons, ← add_assoc] at this
          exact this)
        simp only [List.length_cons]
        omega

theorem normalize_exp_length (exp : ℚ → ℚ) (log_probabilities : List ℚ) :
    (normalize_exp exp log_probabilities).length = log_probabilities.length := by
  simp [normalize_exp]

/-- C9: for a probability vector of length `item_type_count + 1` and any
uniform value `u`, the index `select_categorical` returns lies in
`[0, item_type_count]`; no smaller index has a cumulative sum exceeding `u`;
if some index has a cumulative sum exceeding `u` then so has the returned one
(it is the smallest such index); and if none has, the returned index is the
last one, `item_type_count`. -/
theorem categorical_draw (item_type_count : Nat) (probability : List ℚ) (u : ℚ)
    (hlen : probability.length = item_type_count + 1) :
    select_categorical probability u (item_type_count + 1) ≤ item_type_count
    ∧ (∀ j : Nat, j < select_categorical probability u (item_type_count + 1) →
        ¬ u < cumulative probability j)
    ∧ ((∃ j : Nat, j ≤ item_type_count ∧ u < cumulative probability j) →
        u < cumulative probability (select_categorical probability u (item_type_count + 1)))
    ∧ ((∀ j : Nat, j ≤ item_type_count → ¬ u < cumulative probability j) →
        select_categorical probability u (item_type_count + 1) = item_type_count) := by
  unfold select_categorical
  rw [← hlen, List.take_length]
  cases probability with
  | nil => simp at hlen
  | cons p rest =>
    have hrest : rest.length = item_type_count := by simpa using hlen
    obtain ⟨_, h2, h3, h4, h5⟩ := select_categorical_walk_spec u rest p 0 0
    simp only [zero_add, Nat.sub_zero, hrest] at h2 h3 h4 h5
    exact ⟨h2, h3, h4, h5⟩

/-- Witness of C9: two categories of probability one half, `u = 3/4`. -/
theorem categorical_draw_witness :
    ([1 / 2, 1 / 2] : List ℚ).length = 1 + 1
    ∧ select_categorical [1 / 2, 1 / 2] (3 / 4) (1 + 1) ≤ 1
    ∧ ((∃ j : Nat, j ≤ 1 ∧ (3 / 4 : ℚ) < cumulative [1 / 2, 1 / 2] j) →
        (3 / 4 : ℚ) < cumulative [1 / 2, 1 / 2]
          (select_categorical [1 / 2, 1 / 2] (3 / 4) (1 + 1))) :=
  ⟨rfl, (categorical_draw 1 [1 / 2, 1 / 2] (3 / 4) rfl).1,
    (categorical_draw 1 [1 / 2, 1 / 2] (3 / 4) rfl).2.2.1⟩

/-- C10, the code at a failing input: the generator passed to `sample` has
maximum `2 ^ 32 - 1` and returns it, the global `engine` has maximum
2147483646.  The value handed to `select_categorical` is the output divided by
the maximum of `engine`, not by the maximum of the generator that produced it,
and it is not below 1.  Even when the two maxima agree (both 4), the output 4
gives exactly 1, outside `[0, 1)`. -/
theorem uniform_draw_divides_by_engine_max :
    cell_random minstd_field ⟨empty_store, full_range_rng⟩ = (4294967295 : ℚ) / 2147483646
    ∧ cell_random minstd_field ⟨empty_store, full_range_rng⟩
        ≠ ((full_range_rng.next).1 : ℚ) / (full_range_rng.max : ℚ)
    ∧ ¬ cell_random minstd_field ⟨empty_store, full_range_rng⟩ < 1
    ∧ (constant_rng 4).max = example_field.engine_max
    ∧ cell_random example_field ⟨empty_store, constant_rng 4⟩ = 1 := by
  refine ⟨?_, ?_, ?_, rfl, ?_⟩ <;>
    norm_num [cell_random, uniform_draw, minstd_field, full_range_rng, RNG.next,
      example_field, constant_rng]

/-! ## What a completed update can have changed -/

/-- A completed run of the mutator had a patch at `patch_index`; it left every
other patch alone, and every item of that patch afterwards is an item it held
before or the new item, whose type is then real. -/
theorem mutate_cell_members (g : gibbs_field) (patches : patch_store) (nb : neighborhood_result)
    (w : position) (oi ot s : Nat) (patches1 : patch_store)
    (h : mutate_cell g patches nb w oi ot s = Except.ok patches1) :
    ∃ cur : position, current_patch_of nb = Except.ok cur
      ∧ (∀ p : position, p ≠ cur → patches1 p = patches p)
      ∧ (∀ a : item, a ∈ patches1 cur →
          a ∈ patches cur ∨ (a = ⟨s, w, 0, 0⟩ ∧ s < g.item_type_count)) := by
  cases hcur : current_patch_of nb with
  | error e => simp [mutate_cell, hcur] at h
  | ok cur =>
    refine ⟨cur, rfl, ?_⟩
    by_cases hsame : ot = s
    · rw [mutate_cell_same g patches nb w oi ot s cur hcur hsame] at h
      have hp : patches = patches1 := Except.ok.inj h
      subst hp
      exact ⟨fun _ _ => rfl, fun a ha => Or.inl ha⟩
    · by_cases h1 : ot < g.item_type_count
      · by_cases hoi : oi < (patches cur).length
        · have hget : (patches cur)[oi]? = some ((patches cur)[oi]) :=
            List.getElem?_eq_getElem hoi
          by_cases h2 : s < g.item_type_count
          · rw [mutate_cell_replace g patches nb w oi ot s cur hcur hsame h1 hoi h2] at h
            have hp := Except.ok.inj h
            subst hp
            refine ⟨fun p hp => Function.update_noteq hp _ _, ?_⟩
            intro a ha
            rw [Function.update_same] at ha
            rcases List.mem_append.mp ha with ha | ha
            · exact Or.inl (array_remove_mem _ _ _ hget a ha)
            · exact Or.inr ⟨List.mem_singleton.mp ha, h2⟩
          · rw [mutate_cell_remove g patches nb w oi ot s cur hcur hsame h1 hoi h2] at h
            have hp := Except.ok.inj h
            subst hp
            refine ⟨fun p hp => Function.update_noteq hp _ _, ?_⟩
            intro a ha
            rw [Function.update_same] at ha
            exact Or.inl (array_remove_mem _ _ _ hget a ha)
        · simp [mutate_cell, hcur, hsame, remove_old, h1, hoi] at h
      · by_cases h2 : s < g.item_type_count
        · rw [mutate_cell_add g patches nb w oi ot s cur hcur h1 h2] at h
          have hp := Except.ok.inj h
          subst hp
          refine ⟨fun p hp => Function.update_noteq hp _ _, ?_⟩
          intro a ha
          rw [Function.update_same] at ha
          rcases List.mem_append.mp ha with ha | ha
          · exact Or.inl ha
          · exact Or.inr ⟨List.mem_singleton.mp ha, h2⟩
        · rw [mutate_cell_keep g patches nb w oi ot s cur hcur h1 h2] at h
          have hp : patches = patches1 := Except.ok.inj h
          subst hp
          exact ⟨fun _ _ => rfl, fun a ha => Or.inl ha⟩

/-- The same for a completed single-site update. -/
theorem sample_cell_members (g : gibbs_field) (st st1 : sampler_state)
    (patch_position position_within_patch : position)
    (h : sample_cell g st patch_position position_within_patch = Except.ok st1) :
    ∃ cur : position,
      current_patch_of (cell_neighborhood g st patch_position position_within_patch)
        = Except.ok cur
      ∧ (∀ p : position, p ≠ cur → st1.patches p = st.patches p)
      ∧ (∀ a : item, a ∈ st1.patches cur →
          a ∈ st.patches cur
          ∨ (a = ⟨cell_sampled_item_type g st patch_position position_within_patch,
                world_position_of g.n patch_position position_within_patch, 0, 0⟩
              ∧ cell_sampled_item_type g st patch_position position_within_patch
                < g.item_type_count)) := by
  rw [sample_cell_eq] at h
  split at h
  · exact absurd h (by simp)
  · rename_i patches1 hm
    have h2 := Except.ok.inj h
    subst h2
    exact mutate_cell_members g st.patches _ _ _ _ _ patches1 hm

/-- A completed iteration of the loop is a completed single-site update of the
same patches. -/
theorem sample_iteration_cell (g : gibbs_field) (st st1 : sampler_state)
    (h : sample_iteration g st = Except.ok st1) :
    ∃ (rng3 : RNG) (patch_position position_within_patch : position),
      sample_cell g ⟨st.patches, rng3⟩ patch_position position_within_patch
        = Except.ok st1 := by
  by_cases hp : g.patch_count = 0
  · rw [sample_iteration_fault g st (Or.inl hp)] at h
    exact absurd h (by simp)
  · by_cases hn : g.n = 0
    · rw [sample_iteration_fault g st (Or.inr hn)] at h
      exact absurd h (by simp)
    · rw [sample_iteration_eq g st hp hn] at h
      exact ⟨_, _, _, h⟩

/-- A property of the patches that every completed update preserves is
preserved by every completed run of updates. -/
theorem run_updates_invariant (g : gibbs_field) (P : patch_store → Prop)
    (hP : ∀ (st st1 : sampler_state) (pp off : position), P st.patches →
      sample_cell g st pp off = Except.ok st1 → P st1.patches) :
    ∀ (k : Nat) (st st1 : sampler_state), run_updates g k st = Except.ok st1 →
      P st.patches → P st1.patches := by
  intro k
  induction k with
  | zero =>
    intro st st1 h hp
    have h2 := Except.ok.inj h
    rw [← h2]
    exact hp
  | succ k ih =>
    intro st st1 h hp
    simp only [run_updates] at h
    split at h
    · exact absurd h (by simp)
    · rename_i st2 h2
      obtain ⟨rng3, pp, off, hc⟩ := sample_iteration_cell g st st2 h2
      exact ih st2 st1 h (hP ⟨st.patches, rng3⟩ st2 pp off hp hc)

theorem sample_cell_real_types (g : gibbs_field) (st st1 : sampler_state)
    (pp off : position) (hrt : real_types g st.patches)
    (h : sample_cell g st pp off = Except.ok st1) : real_types g st1.patches := by
  obtain ⟨cur, _, hframe, hmem⟩ := sample_cell_members g st st1 pp off h
  intro p a ha
  by_cases hp : p = cur
  · subst hp
    rcases hmem a ha with hold | ⟨hnew, hs⟩
    · exact hrt p a hold
    · rw [hnew]
      exact hs
  · rw [hframe p hp] at ha
    exact hrt p a ha

/-! ## No modulo by zero -/

theorem mutate_cell_no_modulo (g : gibbs_field) (patches : patch_store)
    (nb : neighborhood_result) (w : position) (oi ot s : Nat) :
    mutate_cell g patches nb w oi ot s ≠ Except.error fault.modulo_by_zero := by
  unfold mutate_cell current_patch_of remove_old
  intro h
  split at h
  · rename_i e he
    split at he
    · simp only [Except.error.injEq] at he h
      rw [← he] at h
      exact absurd h (by decide)
    · split at he
      · simp only [Except.error.injEq] at he h
        rw [← he] at h
        exact absurd h (by decide)
      · exact absurd he (by simp)
  · split at h
    · exact absurd h (by simp)
    · split at h
      · rename_i e he
        split at he
        · split at he
          · exact absurd he (by simp)
          · simp only [Except.error.injEq] at he h
            rw [← he] at h
            exact absurd h (by decide)
        · exact absurd he (by simp)
      · exact absurd h (by simp)

theorem sample_cell_no_modulo (g : gibbs_field) (st : sampler_state) (pp off : position) :
    sample_cell g st pp off ≠ Except.error fault.modulo_by_zero := by
  rw [sample_cell_eq]
  intro h
  split at h
  · rename_i e he
    simp only [Except.error.injEq] at h
    rw [h] at he
    exact mutate_cell_no_modulo g _ _ _ _ _ _ he
  · exact absurd h (by simp)

theorem sample_iteration_no_modulo (g : gibbs_field) (st : sampler_state)
    (hp : g.patch_count ≠ 0) (hn : g.n ≠ 0) :
    sample_iteration g st ≠ Except.error fault.modulo_by_zero := by
  rw [sample_iteration_eq g st hp hn]
  exact sample_cell_no_modulo g _ _ _

theorem run_updates_no_modulo (g : gibbs_field) :
    ∀ (k : Nat) (st : sampler_state), (k = 0 ∨ (g.patch_count ≠ 0 ∧ g.n ≠ 0)) →
      run_updates g k st ≠ Except.error fault.modulo_by_zero := by
  intro k
  induction k with
  | zero => intro st _ h; simp [run_updates] at h
  | succ k ih =>
    intro st hk h
    have hpn : g.patch_count ≠ 0 ∧ g.n ≠ 0 := by
      rcases hk with hk | hk
      · omega
      · exact hk
    simp only [run_updates] at h
    split at h
    · rename_i e he
      simp only [Except.error.injEq] at h
      rw [h] at he
      exact sample_iteration_no_modulo g st hpn.1 hpn.2 he
    · rename_i st2 _
      exact ih st2 (Or.inr hpn) h

/-! ## Claims about the sentinel, the targets and the loop bound -/

/-- C11: the empty sentinel is never stored.  Every item a completed
single-site update leaves in a patch is an item the patch held before or has a
type strictly below `item_type_count`; so when every stored item has a real
type before a call of `sample`, every stored item has a real type after it;
and on a well-formed world whose neighborhoods designate the owning patch the
call does return. -/
theorem sentinel_never_stored (g : gibbs_field) (st : sampler_state)
    (hrt : real_types g st.patches) :
    (∀ (patch_position position_within_patch : position) (st1 : sampler_state),
      sample_cell g st patch_position position_within_patch = Except.ok st1 →
      ∀ (p : position) (a : item), a ∈ st1.patches p →
        a ∈ st.patches p ∨ a.item_type < g.item_type_count)
    ∧ (∀ st1 : sampler_state, sample g st = Except.ok st1 → real_types g st1.patches)
    ∧ (single_occupancy st.patches → patch_containment g st.patches → resolves_owners g →
        ∃ st1 : sampler_state, sample g st = Except.ok st1 ∧ real_types g st1.patches) := by
  refine ⟨?_, ?_, ?_⟩
  · intro pp off st1 h p a ha
    obtain ⟨cur, _, hframe, hmem⟩ := sample_cell_members g st st1 pp off h
    by_cases hp : p = cur
    · subst hp
      rcases hmem a ha with hold | ⟨hnew, hs⟩
      · exact Or.inl hold
      · right
        rw [hnew]
        exact hs
    · left
      rw [hframe p hp] at ha
      exact ha
  · intro st1 h
    rw [sample_eq_run_updates] at h
    exact run_updates_invariant g (real_types g)
      (fun st2 st3 pp off h2 h3 => sample_cell_real_types g st2 st3 pp off h2 h3)
      _ st st1 h hrt
  · intro hso hpc hres
    obtain ⟨st1, h1, h2⟩ := sample_well_formed g st ⟨hso, hrt, hpc⟩ hres
    exact ⟨st1, h1, h2.2.1⟩

/-- Witness of C11: a call of `sample` on the world with one item. -/
theorem sentinel_never_stored_witness :
    real_types example_field one_item_store
    ∧ ∃ st1 : sampler_state,
        sample example_field ⟨one_item_store, constant_rng 2⟩ = Except.ok st1
        ∧ real_types example_field st1.patches :=
  ⟨well_formed_one_item_store.2.1,
    (sentinel_never_stored example_field ⟨one_item_store, constant_rng 2⟩
      well_formed_one_item_store.2.1).2.2
      well_formed_one_item_store.1 well_formed_one_item_store.2.2
      (resolves_owners_flat example_field rfl)⟩

theorem fdiv_patch (p : Int) (n o : Nat) (ho : o < n) :
    Int.fdiv (p * (n : Int) + (o : Int)) (n : Int) = p := by
  have hn : (0 : Int) < (n : Int) := by exact_mod_cast (by omega : 0 < n)
  rw [Int.fdiv_eq_ediv _ (le_of_lt hn), add_comm, Int.add_mul_ediv_right _ _ (ne_of_gt hn),
    Int.ediv_eq_zero_of_lt (by exact_mod_cast Nat.zero_le o) (by exact_mod_cast ho)]
  simp

/-- The patch owning `patch_position * n + offset` is `patch_position` when
both offsets are below `n`. -/
theorem owning_patch_world_position (n : Nat) (patch_position : position) (ox oy : Nat)
    (hx : ox < n) (hy : oy < n) :
    owning_patch n (world_position_of n patch_position ⟨(ox : Int), (oy : Int)⟩)
      = patch_position := by
  cases patch_position with
  | mk px py =>
    simp only [owning_patch, world_position_of, position.scale, position.add,
      fdiv_patch px n ox hx, fdiv_patch py n oy hy]

/-- Every item a completed update leaves in a patch was in that patch before or
is located at the world position `patch_position * n + position_within_patch`
of line 54. -/
theorem sample_cell_new_items (g : gibbs_field) (st st1 : sampler_state)
    (pp off : position) (h : sample_cell g st pp off = Except.ok st1) :
    ∀ (p : position) (a : item), a ∈ st1.patches p →
      a ∈ st.patches p ∨ a.location = world_position_of g.n pp off := by
  obtain ⟨cur, _, hframe, hmem⟩ := sample_cell_members g st st1 pp off h
  intro p a ha
  by_cases hp : p = cur
  · subst hp
    rcases hmem a ha with hold | ⟨hnew, _⟩
    · exact Or.inl hold
    · exact Or.inr (by rw [hnew])
  · rw [hframe p hp] at ha
    exact Or.inl ha

/-- C12: target selection.  With `patch_count > 0` and `n > 0`, and whatever
order the compiled code draws the arguments of line 38 in, one iteration of the
sweep takes the next three outputs of the generator: the one at the slot of the
patch index, reduced mod `patch_count`, is an index `k` below `patch_count`;
those at the slots of the offsets, reduced mod `n`, are offsets below `n`.  The
iteration is the single-site update at the world position
`patch_positions[k] * n + offset`: the neighborhood queried, the occupant
scanned for and the location of an item added are all that position.  Its
coordinates floor-divided by `n` give back `patch_positions[k]`, a position of
the caller's list. -/
theorem target_selection (g : gibbs_field) (st : sampler_state)
    (hp : 0 < g.patch_count) (hn : 0 < g.n) :
    ∃ (k ox oy : Nat) (w : position),
      k = st.rng.outputs (st.rng.calls + patch_slot g.order) % g.patch_count
      ∧ ox = st.rng.outputs (st.rng.calls + offset_x_slot g.order) % g.n
      ∧ oy = st.rng.outputs (st.rng.calls + offset_y_slot g.order) % g.n
      ∧ k < g.patch_count ∧ ox < g.n ∧ oy < g.n
      ∧ w = ⟨(g.patch_positions k).x * (g.n : Int) + (ox : Int),
            (g.patch_positions k).y * (g.n : Int) + (oy : Int)⟩
      ∧ sample_iteration g st
          = (match mutate_cell g st.patches (g.map.get_neighborhood st.patches w) w
              (build_distribution g st.patches
                (g.map.get_neighborhood st.patches w).neighbor_positions w).old_item_index
              (build_distribution g st.patches
                (g.map.get_neighborhood st.patches w).neighbor_positions w).old_item_type
              (select_categorical
                (normalize_exp g.exp (build_distribution g st.patches
                  (g.map.get_neighborhood st.patches w).neighbor_positions
                  w).log_probabilities)
                (uniform_draw g (st.rng.outputs (st.rng.calls + 3)))
                (g.item_type_count + 1)) with
            | Except.error e => Except.error e
            | Except.ok patches =>
              Except.ok ⟨patches, ⟨st.rng.outputs, st.rng.calls + 4, st.rng.max⟩⟩)
      ∧ (∀ st1 : sampler_state, sample_iteration g st = Except.ok st1 →
          ∀ (p : position) (a : item), a ∈ st1.patches p →
            a ∈ st.patches p ∨ a.location = w)
      ∧ owning_patch g.n w = g.patch_positions k := by
  have heq := sample_iteration_eq g st (by omega) (by omega)
  refine ⟨_, _, _, _, rfl, rfl, rfl, Nat.mod_lt _ hp, Nat.mod_lt _ hn, Nat.mod_lt _ hn,
    rfl, ?_, ?_, ?_⟩
  · rw [heq]
    rfl
  · intro st1 h1
    rw [heq] at h1
    exact sample_cell_new_items g _ st1 _ _ h1
  · exact owning_patch_world_position g.n _ _ _ (Nat.mod_lt _ hn) (Nat.mod_lt _ hn)

/-- Witness of C12: two patches `(0, 0)` and `(1, 0)` of side 2, the offsets
drawn first and the patch index last, and a generator returning 1, 2, 3.  The
offsets are `(1, 0)`, the patch index is `3 mod 2 = 1`, and the target is the
world position `(3, 0)` of the patch `(1, 0)`. -/
theorem target_selection_witness :
    0 < late_patch_field.patch_count ∧ 0 < late_patch_field.n
    ∧ ∃ (k ox oy : Nat) (w : position),
      k = 1 ∧ ox = 1 ∧ oy = 0 ∧ w = ⟨3, 0⟩
      ∧ (∀ st1 : sampler_state,
          sample_iteration late_patch_field ⟨empty_store, counting_rng⟩ = Except.ok st1 →
          ∀ (p : position) (a : item), a ∈ st1.patches p →
            a ∈ empty_store p ∨ a.location = w)
      ∧ owning_patch late_patch_field.n w = late_patch_field.patch_positions k := by
  obtain ⟨k, ox, oy, w, hk, hox, hoy, _, _, _, hw, _, hnew, hown⟩ :=
    target_selection late_patch_field ⟨empty_store, counting_rng⟩ (by decide) (by decide)
  have hk1 : k = 1 := hk
  have hox1 : ox = 1 := hox
  have hoy1 : oy = 0 := hoy
  subst hk1 hox1 hoy1
  exact ⟨by decide, by decide, 1, 1, 0, w, rfl, rfl, rfl, by rw [hw]; decide, hnew, hown⟩

/-- C18: no modulo by zero.  Whenever the loop condition of `sample` holds, so
that the body executes, `patch_count` and `n` are both non-zero, whether or
not the product `patch_count * n * n` wraps; hence `sample` never runs into
`rng() % 0`; and with `patch_count == 0` or `n == 0` it performs no update and
returns the state it was given. -/
theorem no_modulo_by_zero (g : gibbs_field) (st : sampler_state) :
    (∀ i : Nat, i < sweep_length g → g.patch_count ≠ 0 ∧ g.n ≠ 0)
    ∧ sample g st ≠ Except.error fault.modulo_by_zero
    ∧ (g.patch_count = 0 ∨ g.n = 0 → sample g st = Except.ok st) := by
  refine ⟨fun i hi => sweep_length_pos g (by omega), ?_, ?_⟩
  · rw [sample_eq_run_updates]
    apply run_updates_no_modulo
    rcases Nat.eq_zero_or_pos (sweep_length g) with h | h
    · exact Or.inl h
    · exact Or.inr (sweep_length_pos g h)
  · intro h
    have h0 : sweep_length g = 0 := by
      rw [sweep_length_eq]
      rcases h with h | h <;> simp [h]
    rw [sample_eq_run_updates, h0]
    rfl

/-- Witness of C18: three patches of side 0. -/
theorem no_modulo_by_zero_witness :
    degenerate_field.n = 0
    ∧ sample degenerate_field ⟨one_item_store, constant_rng 1⟩
        = Except.ok ⟨one_item_store, constant_rng 1⟩ :=
  ⟨rfl, (no_modulo_by_zero degenerate_field ⟨one_item_store, constant_rng 1⟩).2.2
    (Or.inr rfl)⟩

/-! ## Claims about the distribution -/

theorem sum_map_nonpos (l : List item) (f : item → ℚ) (h : ∀ a ∈ l, f a ≤ 0) :
    (l.map f).sum ≤ 0 := by
  induction l with
  | nil => simp
  | cons a rest ih =>
    simp only [List.map_cons, List.sum_cons]
    have h1 := h a (List.mem_cons_self _ _)
    have h2 := ih (fun b hb => h b (List.mem_cons_of_mem _ hb))
    linarith

theorem sum_map_nonpos_positions (l : List position) (f : position → ℚ)
    (h : ∀ p ∈ l, f p ≤ 0) : (l.map f).sum ≤ 0 := by
  induction l with
  | nil => simp
  | cons a rest ih =>
    simp only [List.map_cons, List.sum_cons]
    have h1 := h a (List.mem_cons_self _ _)
    have h2 := ih (fun b hb => h b (List.mem_cons_of_mem _ hb))
    linarith

/-- The entry of a real type in the array the builder fills. -/
theorem build_distribution_entry (g : gibbs_field) (patches : patch_store)
    (neighbors : List position) (w : position) (i : Nat) (hi : i < g.item_type_count) :
    (build_distribution g patches neighbors w).log_probabilities[i]?
      = some (float_sum g.rounding (g.map.intensity w i)
          (neighborhood_terms g.map patches w i neighbors)) := by
  rw [build_distribution_log_probabilities, List.getElem?_append_left (by simpa using hi)]
  simp [hi]

/-- The entry of the empty category in the array the builder fills. -/
theorem build_distribution_last (g : gibbs_field) (patches : patch_store)
    (neighbors : List position) (w : position) :
    (build_distribution g patches neighbors w).log_probabilities[g.item_type_count]?
      = some 0 := by
  rw [build_distribution_log_probabilities, List.getElem?_append_right (by simp)]
  simp

/-- The entries of the normalized array. -/
theorem normalize_exp_entry (exp : ℚ → ℚ) (l : List ℚ) (i : Nat) (v : ℚ)
    (h : l[i]? = some v) :
    (normalize_exp exp l)[i]?
      = some (exp (v - l.foldl max (l.headD 0))
          / (l.map (fun x => exp (x - l.foldl max (l.headD 0)))).sum) := by
  simp [normalize_exp, List.getElem?_map, h]

/-- C13: the flat-model scenario.  With one item type and an energy model
whose intensity and interaction are 0 everywhere (for every `n` and every patch
list, so in particular for `n = 2` and the single patch `(0, 0)`), for every
world state and every cell the builder computes the two log-probabilities
`[0, 0]`, and the normalized distribution is exactly one half for type 0 and
one half for empty. -/
theorem flat_model_scenario (g : gibbs_field) (st : sampler_state)
    (patch_position position_within_patch : position)
    (hcount : g.item_type_count = 1)
    (hint : ∀ (w : position) (i : Nat), g.map.intensity w i = 0)
    (hx : ∀ (w v : position) (i t : Nat), g.map.interaction w v i t = 0)
    (hexp : g.exp 0 = 1) :
    (cell_distribution_of g st patch_position position_within_patch).log_probabilities
      = [0, 0]
    ∧ normalize_exp g.exp
        (cell_distribution_of g st patch_position position_within_patch).log_probabilities
      = [1 / 2, 1 / 2] := by
  have hlp : (cell_distribution_of g st patch_position position_within_patch).log_probabilities
      = [0, 0] := by
    unfold cell_distribution_of
    rw [build_distribution_log_probabilities, hcount]
    simp [List.range_succ, float_sum_flat g _ _ _ _ hint hx]
  refine ⟨hlp, ?_⟩
  rw [hlp]
  simp [normalize_exp, hexp]
  norm_num

/-- Witness of C13: the scenario itself, on the world with one item, at the
occupied cell. -/
theorem flat_model_scenario_witness :
    flat_field.item_type_count = 1 ∧ flat_field.n = 2 ∧ flat_field.patch_count = 1
    ∧ flat_field.patch_positions 0 = ⟨0, 0⟩
    ∧ (cell_distribution_of flat_field ⟨one_item_store, constant_rng 0⟩
        ⟨0, 0⟩ ⟨0, 0⟩).log_probabilities = [0, 0]
    ∧ normalize_exp flat_field.exp
        (cell_distribution_of flat_field ⟨one_item_store, constant_rng 0⟩
          ⟨0, 0⟩ ⟨0, 0⟩).log_probabilities = [1 / 2, 1 / 2] :=
  ⟨rfl, rfl, rfl, rfl,
    flat_model_scenario flat_field ⟨one_item_store, constant_rng 0⟩ ⟨0, 0⟩ ⟨0, 0⟩ rfl
      (fun _ _ => rfl) (fun _ _ _ _ => rfl) rfl⟩

/-- C14: empty-state competitiveness.  When every intensity and interaction
value is at most 0, the log-probability of the empty category, which is 0, is
at least the log-probability of every real type; and, the exponential being
monotone and non-negative, the normalized probability of the empty category is
at least the probability of every real type. -/
theorem empty_state_competitive (g : gibbs_field) (st : sampler_state)
    (patch_position position_within_patch : position)
    (hint : ∀ (w : position) (i : Nat), g.map.intensity w i ≤ 0)
    (hx : ∀ (w v : position) (i t : Nat), g.map.interaction w v i t ≤ 0)
    (hmono : Monotone g.exp) (hnn : ∀ v : ℚ, 0 ≤ g.exp v) :
    (cell_distribution_of g st patch_position position_within_patch).log_probabilities[
        g.item_type_count]? = some 0
    ∧ (∀ i : Nat, i < g.item_type_count → ∃ v : ℚ,
        (cell_distribution_of g st patch_position position_within_patch).log_probabilities[i]?
          = some v ∧ v ≤ 0)
    ∧ (∃ pe : ℚ,
        (normalize_exp g.exp (cell_distribution_of g st patch_position
          position_within_patch).log_probabilities)[g.item_type_count]? = some pe
        ∧ ∀ i : Nat, i < g.item_type_count → ∃ pv : ℚ,
          (normalize_exp g.exp (cell_distribution_of g st patch_position
            position_within_patch).log_probabilities)[i]? = some pv ∧ pv ≤ pe) := by
  have hlast := build_distribution_last g st.patches
    (cell_neighborhood g st patch_position position_within_patch).neighbor_positions
    (world_position_of g.n patch_position position_within_patch)
  have hentry : ∀ i : Nat, i < g.item_type_count → ∃ v : ℚ,
      (cell_distribution_of g st patch_position position_within_patch).log_probabilities[i]?
        = some v ∧ v ≤ 0 := by
    intro i hi
    refine ⟨_, build_distribution_entry g st.patches _ _ i hi, ?_⟩
    apply float_sum_nonpos
    · intro t ht
      obtain ⟨_, a, _, _, _, h⟩ := neighborhood_terms_mem g.map st.patches _ i _ t ht
      rw [h]
      exact hx _ _ _ _
    · exact hint _ i
  refine ⟨hlast, hentry, ?_⟩
  refine ⟨_, normalize_exp_entry g.exp _ _ 0 hlast, ?_⟩
  intro i hi
  obtain ⟨v, hv, hv0⟩ := hentry i hi
  refine ⟨_, normalize_exp_entry g.exp _ _ v hv, ?_⟩
  apply div_le_div_of_nonneg_right
  · exact hmono (by linarith)
  · apply List.sum_nonneg
    intro x hx2
    obtain ⟨y, _, hy⟩ := List.mem_map.mp hx2
    rw [← hy]
    exact hnn _

/-- Witness of C14: the example sampler, whose energies are all 0. -/
theorem empty_state_competitive_witness :
    (∀ (w : position) (i : Nat), example_field.map.intensity w i ≤ 0)
    ∧ Monotone example_field.exp
    ∧ (∃ pe : ℚ,
        (normalize_exp example_field.exp (cell_distribution_of example_field
          ⟨one_item_store, constant_rng 0⟩ ⟨0, 0⟩ ⟨1, 0⟩).log_probabilities)[
            example_field.item_type_count]? = some pe
        ∧ ∀ i : Nat, i < example_field.item_type_count → ∃ pv : ℚ,
          (normalize_exp example_field.exp (cell_distribution_of example_field
            ⟨one_item_store, constant_rng 0⟩ ⟨0, 0⟩ ⟨1, 0⟩).log_probabilities)[i]? = some pv
          ∧ pv ≤ pe) :=
  ⟨fun _ _ => le_refl _, monotone_const,
    (empty_state_competitive example_field ⟨one_item_store, constant_rng 0⟩ ⟨0, 0⟩ ⟨1, 0⟩
      (fun _ _ => le_refl _) (fun _ _ _ _ => le_refl _) monotone_const
      (fun _ => zero_le_one)).2.2⟩

/-! ## Claims about failures -/

/-- With no item type the scratch array has the single entry of the empty
category, the scan of the neighborhood never runs, and the category drawn is
0, which is also what `old_item_type` still holds. -/
theorem zero_types_no_op (g : gibbs_field) (st : sampler_state) (pp off : position)
    (hcount : g.item_type_count = 0) :
    (cell_distribution_of g st pp off).old_item_type = 0
    ∧ cell_sampled_item_type g st pp off = 0 := by
  constructor
  · simp [cell_distribution_of, build_distribution, hcount]
  · unfold cell_sampled_item_type cell_distribution_of
    rw [build_distribution_log_probabilities, hcount]
    simp [normalize_exp, select_categorical, select_categorical_walk]

theorem sample_cell_zero_types (g : gibbs_field) (st : sampler_state) (pp off : position)
    (hcount : g.item_type_count = 0) (hres : resolves_patch_index g) :
    sample_cell g st pp off = Except.ok ⟨st.patches, (st.rng.next).2⟩ := by
  obtain ⟨cur, hcur0⟩ := hres st.patches (world_position_of g.n pp off)
  have hcur : current_patch_of (cell_neighborhood g st pp off) = Except.ok cur := hcur0
  obtain ⟨h1, h2⟩ := zero_types_no_op g st pp off hcount
  rw [sample_cell_eq, mutate_cell_same g st.patches _ _ _ _ _ cur hcur (h1.trans h2.symm)]

theorem run_updates_zero_types (g : gibbs_field) (hcount : g.item_type_count = 0)
    (hres : resolves_patch_index g) :
    ∀ (k : Nat) (st : sampler_state), (k = 0 ∨ (g.patch_count ≠ 0 ∧ g.n ≠ 0)) →
      ∃ st1 : sampler_state, run_updates g k st = Except.ok st1
        ∧ st1.patches = st.patches := by
  intro k
  induction k with
  | zero => intro st _; exact ⟨st, rfl, rfl⟩
  | succ k ih =>
    intro st hk
    have hpn : g.patch_count ≠ 0 ∧ g.n ≠ 0 := by
      rcases hk with hk | hk
      · omega
      · exact hk
    have hit : ∃ st2 : sampler_state, sample_iteration g st = Except.ok st2
        ∧ st2.patches = st.patches := by
      rw [sample_iteration_eq g st hpn.1 hpn.2, sample_cell_zero_types g _ _ _ hcount hres]
      exact ⟨_, rfl, rfl⟩
    obtain ⟨st2, h2, hp2⟩ := hit
    obtain ⟨st3, h3, hp3⟩ := ih st2 (Or.inr hpn)
    refine ⟨st3, ?_, hp3.trans hp2⟩
    simp only [run_updates, h2]
    exact h3

theorem sample_zero_types (g : gibbs_field) (st : sampler_state)
    (hcount : g.item_type_count = 0) (hres : resolves_patch_index g) :
    ∃ st1 : sampler_state, sample g st = Except.ok st1 ∧ st1.patches = st.patches := by
  rw [sample_eq_run_updates]
  apply run_updates_zero_types g hcount hres
  rcases Nat.eq_zero_or_pos (sweep_length g) with h | h
  · exact Or.inl h
  · exact Or.inr (sweep_length_pos g h)

theorem resolves_patch_index_flat (g : gibbs_field) (h : g.map = flat_map g.n) :
    resolves_patch_index g := by
  intro patches w
  rw [h]
  exact ⟨owning_patch g.n w, rfl⟩

/-- C15 as stated fails: with `item_type_count == 0` a call of `sample` does
not fail; it returns, having left the world as it was. -/
theorem zero_types_completes :
    zero_type_field.item_type_count = 0
    ∧ (∀ e : fault, sample zero_type_field ⟨empty_store, constant_rng 1⟩ ≠ Except.error e)
    ∧ ∃ st1 : sampler_state,
        sample zero_type_field ⟨empty_store, constant_rng 1⟩ = Except.ok st1
        ∧ st1.patches = empty_store := by
  obtain ⟨st1, h1, h2⟩ := sample_zero_types zero_type_field ⟨empty_store, constant_rng 1⟩ rfl
    (resolves_patch_index_flat zero_type_field rfl)
  refine ⟨rfl, ?_, st1, h1, h2⟩
  intro e he
  rw [h1] at he
  exact absurd he (by simp)

/-- C15, amended: with `item_type_count == 0`, and a map that produces a valid
`patch_index` for every target, a call of `sample` does not fail: it
completes, every update being a no-op, and leaves every patch unchanged. -/
theorem zero_types_sample (g : gibbs_field) (st : sampler_state)
    (hcount : g.item_type_count = 0) (hres : resolves_patch_index g) :
    ∃ st1 : sampler_state, sample g st = Except.ok st1 ∧ st1.patches = st.patches :=
  sample_zero_types g st hcount hres

/-- Witness of C15, amended: the world with one item is returned as it was. -/
theorem zero_types_sample_witness :
    zero_type_field.item_type_count = 0 ∧ resolves_patch_index zero_type_field
    ∧ ∃ st1 : sampler_state,
        sample zero_type_field ⟨one_item_store, constant_rng 1⟩ = Except.ok st1
        ∧ st1.patches = one_item_store :=
  ⟨rfl, resolves_patch_index_flat zero_type_field rfl,
    zero_types_sample zero_type_field ⟨one_item_store, constant_rng 1⟩ rfl
      (resolves_patch_index_flat zero_type_field rfl)⟩

theorem sample_cell_patch_index_not_written (g : gibbs_field) (st : sampler_state)
    (pp off : position) (h : (cell_neighborhood g st pp off).patch_index = none) :
    sample_cell g st pp off = Except.error fault.patch_index_not_written := by
  rw [sample_cell_eq]
  simp [mutate_cell, current_patch_of, h]

/-- C16 as stated fails: the map resolves no neighborhood and writes no
`patch_index`, and the update does not abort.  Nothing in `sample_cell` tests
the outcome of `get_neighborhood`: the run goes through the builder and the
draw and reaches line 85, where it reads the unwritten `patch_index`; that
read is undefined behaviour, which is what the fault records, and so is the
whole call of `sample`. -/
theorem unresolved_neighborhood_is_read :
    (cell_neighborhood unresolving_field ⟨empty_store, constant_rng 0⟩
        ⟨0, 0⟩ ⟨0, 0⟩).patch_index = none
    ∧ sample_cell unresolving_field ⟨empty_store, constant_rng 0⟩ ⟨0, 0⟩ ⟨0, 0⟩
        = Except.error fault.patch_index_not_written
    ∧ sample unresolving_field ⟨empty_store, constant_rng 0⟩
        = Except.error fault.patch_index_not_written := by
  have hall : ∀ (st : sampler_state) (pp off : position),
      sample_cell unresolving_field st pp off
        = Except.error fault.patch_index_not_written :=
    fun st pp off => sample_cell_patch_index_not_written unresolving_field st pp off rfl
  refine ⟨rfl, hall _ _ _, ?_⟩
  have h4 : sweep_length unresolving_field = 4 := by decide
  rw [sample_eq_run_updates, h4]
  simp only [run_updates]
  rw [sample_iteration_eq _ _ (by decide) (by decide), hall]

/-- C16, amended: the update has no abort path of its own.  When
`get_neighborhood` produces no `patch_index` the run still reaches the read of
`patch_index` at line 85, which is undefined.  Mutation is the last step: an
update that completes had a `patch_index` produced, designating a patch of the
returned neighborhood, and it left every other patch unchanged. -/
theorem unresolved_neighborhood (g : gibbs_field) (st : sampler_state)
    (patch_position position_within_patch : position) :
    ((cell_neighborhood g st patch_position position_within_patch).patch_index = none →
      sample_cell g st patch_position position_within_patch
        = Except.error fault.patch_index_not_written)
    ∧ (∀ st1 : sampler_state,
        sample_cell g st patch_position position_within_patch = Except.ok st1 →
        ∃ (k : Nat) (cur : position),
          (cell_neighborhood g st patch_position position_within_patch).patch_index = some k
          ∧ (cell_neighborhood g st patch_position
              position_within_patch).neighbor_positions[k]? = some cur
          ∧ ∀ p : position, p ≠ cur → st1.patches p = st.patches p) := by
  refine ⟨sample_cell_patch_index_not_written g st _ _, ?_⟩
  intro st1 h
  obtain ⟨cur, hcur, hframe, _⟩ := sample_cell_members g st st1 _ _ h
  unfold current_patch_of at hcur
  split at hcur
  · exact absurd hcur (by simp)
  · rename_i k hk
    split at hcur
    · exact absurd hcur (by simp)
    · rename_i q hq
      have hqc : q = cur := Except.ok.inj hcur
      exact ⟨k, cur, hk, hqc ▸ hq, hframe⟩

/-- Witness of C16, amended: the map that resolves no neighborhood. -/
theorem unresolved_neighborhood_witness :
    (cell_neighborhood unresolving_field ⟨one_item_store, constant_rng 2⟩
        ⟨0, 0⟩ ⟨1, 1⟩).patch_index = none
    ∧ sample_cell unresolving_field ⟨one_item_store, constant_rng 2⟩ ⟨0, 0⟩ ⟨1, 1⟩
        = Except.error fault.patch_index_not_written :=
  ⟨rfl, (unresolved_neighborhood unresolving_field ⟨one_item_store, constant_rng 2⟩
    ⟨0, 0⟩ ⟨1, 1⟩).1 rfl⟩

/-! ## Claims about the frame and containment -/

/-- The outcome of the mutator when every item is stored in the patch that owns
its location and the neighborhood designates the owning patch: it returns, only
the owning patch can have changed, every item of its new collection is an old
one or the new item, and the items located elsewhere than the target are the
same up to order. -/
theorem mutate_cell_shape (g : gibbs_field) (patches : patch_store) (w : position) (s : Nat)
    (hpc : patch_containment g patches) (hres : owner_resolved g patches w) :
    ∃ l1 : List item,
      mutate_cell g patches (g.map.get_neighborhood patches w) w
        (build_distribution g patches
          (g.map.get_neighborhood patches w).neighbor_positions w).old_item_index
        (build_distribution g patches
          (g.map.get_neighborhood patches w).neighbor_positions w).old_item_type s
        = Except.ok (Function.update patches (owning_patch g.n w) l1)
      ∧ (∀ a : item, a ∈ l1 → a ∈ patches (owning_patch g.n w) ∨ a = ⟨s, w, 0, 0⟩)
      ∧ (l1.filter (fun a => decide (a.location ≠ w))).Perm
          ((patches (owning_patch g.n w)).filter (fun a => decide (a.location ≠ w))) := by
  have hkeep : ∃ l1 : List item,
      Except.ok patches
        = (Except.ok (Function.update patches (owning_patch g.n w) l1) :
            Except fault patch_store)
      ∧ (∀ a : item, a ∈ l1 → a ∈ patches (owning_patch g.n w) ∨ a = ⟨s, w, 0, 0⟩)
      ∧ (l1.filter (fun a => decide (a.location ≠ w))).Perm
          ((patches (owning_patch g.n w)).filter (fun a => decide (a.location ≠ w))) :=
    ⟨patches (owning_patch g.n w), by rw [Function.update_eq_self],
      fun a ha => Or.inl ha, List.Perm.refl _⟩
  have hadd : ∀ l : List item,
      (∀ a : item, a ∈ l → a ∈ patches (owning_patch g.n w)) →
      (l.filter (fun a => decide (a.location ≠ w))).Perm
          ((patches (owning_patch g.n w)).filter (fun a => decide (a.location ≠ w))) →
      (∀ a : item, a ∈ l ++ [(⟨s, w, 0, 0⟩ : item)] →
          a ∈ patches (owning_patch g.n w) ∨ a = ⟨s, w, 0, 0⟩)
      ∧ ((l ++ [(⟨s, w, 0, 0⟩ : item)]).filter (fun a => decide (a.location ≠ w))).Perm
          ((patches (owning_patch g.n w)).filter (fun a => decide (a.location ≠ w))) := by
    intro l hl hperm
    constructor
    · intro a ha
      rcases List.mem_append.mp ha with ha | ha
      · exact Or.inl (hl a ha)
      · exact Or.inr (List.mem_singleton.mp ha)
    · simpa [List.filter_append] using hperm
  by_cases hs : s < g.item_type_count
  · rcases build_distribution_old g patches
        (g.map.get_neighborhood patches w).neighbor_positions w
      with ⟨_, _, h2⟩ | ⟨q, _, b, hb, hbw, hbt⟩
    · refine ⟨_, mutate_cell_add g patches _ w _ _ s _ hres (by omega) hs, ?_⟩
      exact hadd _ (fun a ha => ha) (List.Perm.refl _)
    · have hq : owning_patch g.n w = q := hbw ▸ hpc q b (List.getElem?_mem hb)
      rw [← hq] at hb
      have hoi := (List.getElem?_eq_some.mp hb).1
      by_cases hsame : (build_distribution g patches
          (g.map.get_neighborhood patches w).neighbor_positions w).old_item_type = s
      · rw [mutate_cell_same g patches _ w _ _ s _ hres hsame]
        exact hkeep
      · by_cases h1 : (build_distribution g patches
            (g.map.get_neighborhood patches w).neighbor_positions w).old_item_type
            < g.item_type_count
        · refine ⟨_, mutate_cell_replace g patches _ w _ _ s _ hres hsame h1 hoi hs, ?_⟩
          apply hadd _ (fun a ha => array_remove_mem _ _ b hb a ha)
          have hp := (array_remove_perm _ _ b hb).filter (fun a => decide (a.location ≠ w))
          simpa [hbw] using hp
        · refine ⟨_, mutate_cell_add g patches _ w _ _ s _ hres h1 hs, ?_⟩
          exact hadd _ (fun a ha => ha) (List.Perm.refl _)
  · rcases build_distribution_old g patches
        (g.map.get_neighborhood patches w).neighbor_positions w
      with ⟨_, _, h2⟩ | ⟨q, _, b, hb, hbw, hbt⟩
    · rw [mutate_cell_keep g patches _ w _ _ s _ hres (by omega) hs]
      exact hkeep
    · have hq : owning_patch g.n w = q := hbw ▸ hpc q b (List.getElem?_mem hb)
      rw [← hq] at hb
      have hoi := (List.getElem?_eq_some.mp hb).1
      by_cases hsame : (build_distribution g patches
          (g.map.get_neighborhood patches w).neighbor_positions w).old_item_type = s
      · rw [mutate_cell_same g patches _ w _ _ s _ hres hsame]
        exact hkeep
      · by_cases h1 : (build_distribution g patches
            (g.map.get_neighborhood patches w).neighbor_positions w).old_item_type
            < g.item_type_count
        · refine ⟨_, mutate_cell_remove g patches _ w _ _ s _ hres hsame h1 hoi hs,
            fun a ha => Or.inl (array_remove_mem _ _ b hb a ha), ?_⟩
          have hp := (array_remove_perm _ _ b hb).filter (fun a => decide (a.location ≠ w))
          simpa [hbw] using hp
        · rw [mutate_cell_keep g patches _ w _ _ s _ hres h1 hs]
          exact hkeep

/-- The same for `sample_cell`. -/
theorem sample_cell_shape (g : gibbs_field) (st : sampler_state) (pp off : position)
    (hpc : patch_containment g st.patches)
    (hres : owner_resolved g st.patches (world_position_of g.n pp off)) :
    ∃ l1 : List item,
      sample_cell g st pp off
        = Except.ok ⟨Function.update st.patches
            (owning_patch g.n (world_position_of g.n pp off)) l1, (st.rng.next).2⟩
      ∧ (∀ a : item, a ∈ l1 →
          a ∈ st.patches (owning_patch g.n (world_position_of g.n pp off))
          ∨ a = ⟨cell_sampled_item_type g st pp off, world_position_of g.n pp off, 0, 0⟩)
      ∧ (l1.filter (fun a => decide (a.location ≠ world_position_of g.n pp off))).Perm
          ((st.patches (owning_patch g.n (world_position_of g.n pp off))).filter
            (fun a => decide (a.location ≠ world_position_of g.n pp off))) := by
  obtain ⟨l1, h1, h2, h3⟩ := mutate_cell_shape g st.patches (world_position_of g.n pp off)
    (cell_sampled_item_type g st pp off) hpc hres
  refine ⟨l1, ?_, h2, h3⟩
  rw [sample_cell_eq]
  unfold cell_neighborhood cell_distribution_of cell_neighborhood
  rw [h1]

/-- With two item types, a flat energy model, a constant exponential and
`engine.max() == 4`, the three categories are equally likely. -/
theorem flat_energy_sampled (g : gibbs_field) (st : sampler_state) (pp off : position)
    (hcount : g.item_type_count = 2)
    (hint : ∀ (w : position) (i : Nat), g.map.intensity w i = 0)
    (hx : ∀ (w v : position) (i t : Nat), g.map.interaction w v i t = 0)
    (hexp : ∀ v : ℚ, g.exp v = 1) (he : g.engine_max = 4) :
    cell_sampled_item_type g st pp off
      = select_categorical [1 / 3, 1 / 3, 1 / 3] (((st.rng.next).1 : ℚ) / 4) 3 := by
  unfold cell_sampled_item_type cell_distribution_of
  rw [build_distribution_log_probabilities, hcount]
  simp [List.range_succ, float_sum_flat g _ _ _ _ hint hx, normalize_exp, hexp,
    cell_random, uniform_draw, he]
  norm_num

/-- C17 as stated fails on a world that breaks containment.  The target
`(0, 0)` belongs to the patch `(0, 0)`, which is the patch at `patch_index`,
but the item located there is stored in the neighbor patch `(1, 0)`, at index
0.  The sentinel is sampled, and the update removes index 0 of the patch
`(0, 0)`: an item located at `(1, 0)`, not at the target. -/
theorem frame_breaks_without_containment :
    current_patch_of (cell_neighborhood two_patch_field ⟨misplaced_store, constant_rng 3⟩
        ⟨0, 0⟩ ⟨0, 0⟩) = Except.ok ⟨0, 0⟩
    ∧ world_position_of two_patch_field.n ⟨0, 0⟩ ⟨0, 0⟩ = ⟨0, 0⟩
    ∧ (misplaced_store ⟨0, 0⟩).filter (fun a => decide (a.location ≠ ⟨0, 0⟩))
        = [⟨0, ⟨1, 0⟩, 0, 0⟩]
    ∧ ∃ st1 : sampler_state,
        sample_cell two_patch_field ⟨misplaced_store, constant_rng 3⟩ ⟨0, 0⟩ ⟨0, 0⟩
          = Except.ok st1
        ∧ (st1.patches ⟨0, 0⟩).filter (fun a => decide (a.location ≠ ⟨0, 0⟩)) = [] := by
  have hcur : current_patch_of (cell_neighborhood two_patch_field
      ⟨misplaced_store, constant_rng 3⟩ ⟨0, 0⟩ ⟨0, 0⟩) = Except.ok ⟨0, 0⟩ := rfl
  have hs : cell_sampled_item_type two_patch_field ⟨misplaced_store, constant_rng 3⟩
      ⟨0, 0⟩ ⟨0, 0⟩ = 2 := by
    rw [flat_energy_sampled two_patch_field _ _ _ rfl (fun _ _ => rfl)
      (fun _ _ _ _ => rfl) (fun _ => rfl) rfl]
    norm_num [select_categorical, select_categorical_walk, constant_rng, RNG.next]
  have hoi : (cell_distribution_of two_patch_field ⟨misplaced_store, constant_rng 3⟩
      ⟨0, 0⟩ ⟨0, 0⟩).old_item_index = 0 := by decide
  have hot : (cell_distribution_of two_patch_field ⟨misplaced_store, constant_rng 3⟩
      ⟨0, 0⟩ ⟨0, 0⟩).old_item_type = 0 := by decide
  have key := mutate_cell_remove two_patch_field misplaced_store
      (cell_neighborhood two_patch_field ⟨misplaced_store, constant_rng 3⟩ ⟨0, 0⟩ ⟨0, 0⟩)
      (world_position_of two_patch_field.n ⟨0, 0⟩ ⟨0, 0⟩)
      (cell_distribution_of two_patch_field ⟨misplaced_store, constant_rng 3⟩
        ⟨0, 0⟩ ⟨0, 0⟩).old_item_index
      (cell_distribution_of two_patch_field ⟨misplaced_store, constant_rng 3⟩
        ⟨0, 0⟩ ⟨0, 0⟩).old_item_type
      (cell_sampled_item_type two_patch_field ⟨misplaced_store, constant_rng 3⟩
        ⟨0, 0⟩ ⟨0, 0⟩) ⟨0, 0⟩ hcur
      (by rw [hot, hs]; decide) (by rw [hot]; decide) (by rw [hoi]; decide)
      (by rw [hs]; decide)
  have hrun : sample_cell two_patch_field ⟨misplaced_store, constant_rng 3⟩ ⟨0, 0⟩ ⟨0, 0⟩
      = Except.ok ⟨Function.update misplaced_store ⟨0, 0⟩
          (array_remove (misplaced_store ⟨0, 0⟩) 0), ((constant_rng 3).next).2⟩ := by
    rw [sample_cell_eq, key, hoi]
  exact ⟨hcur, by decide, by decide, _, hrun, by decide⟩

/-- C17, amended: the frame of a single-site update.  In a world where every
item is stored in the patch that owns its location, with `get_neighborhood`
designating the owning patch as `patch_index`, for every target and every
sampled category the update returns, every patch other than the one at
`patch_index` is identical afterwards, and within that patch the multiset of
the items located elsewhere than the target is unchanged. -/
theorem update_frame (g : gibbs_field) (st : sampler_state)
    (patch_position position_within_patch : position)
    (hpc : patch_containment g st.patches)
    (hres : owner_resolved g st.patches
      (world_position_of g.n patch_position position_within_patch)) :
    ∃ st1 : sampler_state,
      sample_cell g st patch_position position_within_patch = Except.ok st1
      ∧ (∀ p : position,
          p ≠ owning_patch g.n (world_position_of g.n patch_position position_within_patch) →
          st1.patches p = st.patches p)
      ∧ (((st1.patches (owning_patch g.n
              (world_position_of g.n patch_position position_within_patch))).filter
            (fun a => decide (a.location
              ≠ world_position_of g.n patch_position position_within_patch)) : List item)
          : Multiset item)
        = (((st.patches (owning_patch g.n
              (world_position_of g.n patch_position position_within_patch))).filter
            (fun a => decide (a.location
              ≠ world_position_of g.n patch_position position_within_patch)) : List item)
          : Multiset item) := by
  obtain ⟨l1, h1, _, h3⟩ := sample_cell_shape g st patch_position position_within_patch
    hpc hres
  refine ⟨_, h1, ?_, ?_⟩
  · intro p hp
    simp [Function.update_noteq hp]
  · simp only [Function.update_same]
    exact Multiset.coe_eq_coe.mpr h3

/-- Witness of C17, amended: type 1 replaces the item of the occupied cell. -/
theorem update_frame_witness :
    patch_containment example_field one_item_store
    ∧ ∃ st1 : sampler_state,
      sample_cell example_field ⟨one_item_store, constant_rng 2⟩ ⟨0, 0⟩ ⟨0, 0⟩
        = Except.ok st1
      ∧ (∀ p : position,
          p ≠ owning_patch example_field.n
            (world_position_of example_field.n ⟨0, 0⟩ ⟨0, 0⟩) →
          st1.patches p = one_item_store p) :=
  ⟨well_formed_one_item_store.2.2,
    (update_frame example_field ⟨one_item_store, constant_rng 2⟩ ⟨0, 0⟩ ⟨0, 0⟩
      well_formed_one_item_store.2.2 (resolves_owners_flat example_field rfl _ _)).imp
      (fun _ h => ⟨h.1, h.2.1⟩)⟩

/-- C19: patch containment is preserved.  Assuming `get_neighborhood` returns
as `patch_index` the patch that owns the target position, if every item is
stored in the patch that owns its location before a single-site update, the
update returns and the same holds afterwards: every item of a patch afterwards
was in that patch before, or is located at the target and sits in the patch
that owns the target. -/
theorem containment_preserved (g : gibbs_field) (st : sampler_state)
    (patch_position position_within_patch : position)
    (hres : owner_resolved g st.patches
      (world_position_of g.n patch_position position_within_patch))
    (hpc : patch_containment g st.patches) :
    ∃ st1 : sampler_state,
      sample_cell g st patch_position position_within_patch = Except.ok st1
      ∧ patch_containment g st1.patches
      ∧ (∀ (p : position) (a : item), a ∈ st1.patches p →
          a ∈ st.patches p
          ∨ (p = owning_patch g.n
                (world_position_of g.n patch_position position_within_patch)
              ∧ a.location
                = world_position_of g.n patch_position position_within_patch)) := by
  obtain ⟨l1, h1, h2, _⟩ := sample_cell_shape g st patch_position position_within_patch
    hpc hres
  have hmem : ∀ (p : position) (a : item),
      a ∈ Function.update st.patches
        (owning_patch g.n (world_position_of g.n patch_position position_within_patch)) l1 p →
      a ∈ st.patches p
      ∨ (p = owning_patch g.n (world_position_of g.n patch_position position_within_patch)
          ∧ a.location = world_position_of g.n patch_position position_within_patch) := by
    intro p a ha
    by_cases hp : p = owning_patch g.n
        (world_position_of g.n patch_position position_within_patch)
    · subst hp
      rw [Function.update_same] at ha
      rcases h2 a ha with hold | hnew
      · exact Or.inl hold
      · exact Or.inr ⟨rfl, by rw [hnew]⟩
    · rw [Function.update_noteq hp] at ha
      exact Or.inl ha
  refine ⟨_, h1, ?_, hmem⟩
  intro p a ha
  rcases hmem p a ha with hold | ⟨hp, hloc⟩
  · exact hpc p a hold
  · rw [hloc, hp]

/-- Witness of C19: type 1 is added at the free cell `(1, 1)` of the world with
one item. -/
theorem containment_preserved_witness :
    patch_containment example_field one_item_store
    ∧ ∃ st1 : sampler_state,
      sample_cell example_field ⟨one_item_store, constant_rng 2⟩ ⟨0, 0⟩ ⟨1, 1⟩
        = Except.ok st1
      ∧ patch_containment example_field st1.patches :=
  ⟨well_formed_one_item_store.2.2,
    (containment_preserved example_field ⟨one_item_store, constant_rng 2⟩ ⟨0, 0⟩ ⟨1, 1⟩
      (resolves_owners_flat example_field rfl _ _) well_formed_one_item_store.2.2).imp
      (fun _ h => ⟨h.1, h.2.1⟩)⟩

end nel
